import Mathlib

/-!
Verification of `approx_pi_gcd.c`.

A shallow embedding of `handouts/code/approx_pi_gcd.c`: the Euclidean loop
`mygcd` and the coprime-pair scan of `calcPi`.

* C `int` values are integers (`Int`).  The operator `%` is the remainder of
  the division truncated towards zero (`Int.tmod`).
* A `while`/`for` loop is a function recursing on a fuel argument; it yields
  `none` when the fuel runs out before the loop exits.
* The places where `calcPi` stores the result of an `int` addition or
  multiplication go through an `IntModel`, which says how such a result is
  stored: exactly (unbounded integers), wrapped to 32 bits, or not at all when
  it leaves a given range.
-/

namespace ApproxPiGcd

/-! ## Integer arithmetic of the C program -/

/-- The remainder `a % b` of C on `int` operands (division truncated towards zero). -/
def cRem (a b : Int) : Int := Int.tmod a b

/-- Largest value of a 32-bit `int`. -/
def INT_MAX : Int := 2147483647

/-- Smallest value of a 32-bit `int`. -/
def INT_MIN : Int := -2147483648

/-- Two's complement reduction of an integer to the 32-bit signed range. -/
def wrapInt (x : Int) : Int := (x + 2147483648) % 4294967296 - 2147483648

/-- How the result of an `int` operation of `calcPi` is stored: `var` for the
loop variables (`a++`, `b++`), `acc` for the counter (`cnt += 1`), `prod` for
the product `N * N`.  `none` means that the operation has no result. -/
structure IntModel where
  var : Int → Option Int
  acc : Int → Option Int
  prod : Int → Option Int

/-- Unbounded integers: every result is stored as it is.  This is not the `int`
of C; it is the reference with which the 32-bit models are compared. -/
def IntModel.exact : IntModel := ⟨some, some, some⟩

/-- 32-bit `int` with wrap-around: every result is reduced modulo `2^32`. -/
def IntModel.wrap32 : IntModel :=
  ⟨fun x => some (wrapInt x), fun x => some (wrapInt x), fun x => some (wrapInt x)⟩

/-- Store `x` when it lies in `[lo, hi]`, and nothing otherwise. -/
def storeWithin (lo hi x : Int) : Option Int := if lo ≤ x ∧ x ≤ hi then some x else none

/-- 32-bit `int` where signed overflow has no result (it is undefined in C). -/
def IntModel.checked32 : IntModel :=
  ⟨storeWithin INT_MIN INT_MAX, storeWithin INT_MIN INT_MAX, storeWithin INT_MIN INT_MAX⟩

/-- Integers with a separate upper limit for the loop variables, for the
counter and for the product; a result outside `[0, limit]` is not stored. -/
def IntModel.within (bv bc bp : Int) : IntModel :=
  ⟨storeWithin 0 bv, storeWithin 0 bc, storeWithin 0 bp⟩

/-! ## `mygcd` -/

/-- The `while (b != 0)` loop of `mygcd` (lines 8-13).  The result is the value
returned together with the number of loop iterations performed. -/
def mygcdFuel : Nat → Int → Int → Option (Int × Nat)
  | 0, _, _ => none
  | fuel + 1, a, b =>
    if b ≠ 0 then
      (mygcdFuel fuel b (cRem a b)).map (fun r => (r.1, r.2 + 1))
    else
      some (a, 0)

/-- The function `mygcd(a, b)`: the loop run with `|b| + 1` units of fuel, which
is enough for every input (`mygcdFuel_total`). -/
def mygcd (a b : Int) : Option Int := (mygcdFuel (b.natAbs + 1) a b).map Prod.fst

/-! ## `calcPi` -/

/-- The inner loop `for (int b = ...; b <= N; b++)` of `calcPi` (lines 21-26),
entered with the current `b`.  The state is the counter `cnt` together with the
number of calls of `mygcd` made so far. -/
def calcPiInner (m : IntModel) : Nat → Int → Int → Int → Int × Nat → Option (Int × Nat)
  | 0, _, _, _, _ => none
  | fuel + 1, N, a, b, st =>
    if b ≤ N then
      match mygcd a b with
      | none => none
      | some g =>
        match (if g = 1 then m.acc (st.1 + 1) else some st.1) with
        | none => none
        | some cnt =>
          match m.var (b + 1) with
          | none => none
          | some b1 => calcPiInner m fuel N a b1 (cnt, st.2 + 1)
    else
      some st

/-- The outer loop `for (int a = ...; a <= N; a++)` of `calcPi` (lines 20-27),
entered with the current `a`; each inner loop starts at `b = 1` and gets
`fuelIn` units of fuel. -/
def calcPiOuter (m : IntModel) (fuelIn : Nat) : Nat → Int → Int → Int × Nat → Option (Int × Nat)
  | 0, _, _, _ => none
  | fuel + 1, N, a, st =>
    if a ≤ N then
      match calcPiInner m fuelIn N a 1 st with
      | none => none
      | some st1 =>
        match m.var (a + 1) with
        | none => none
        | some a1 => calcPiOuter m fuelIn fuel N a1 st1
    else
      some st

/-- The double loop of `calcPi(N)` (lines 18-27): `cnt = 0`, `a` from `1`.  The
result is the final counter and the number of calls of `mygcd`. -/
def calcPiScan (m : IntModel) (fuel : Nat) (N : Int) : Option (Int × Nat) :=
  calcPiOuter m fuel fuel N 1 (0, 0)

/-- The counter `cnt` when the double loop of `calcPi(N)` has finished. -/
def calcPiCnt (m : IntModel) (fuel : Nat) (N : Int) : Option Int :=
  (calcPiScan m fuel N).map Prod.fst

/-- The `int` product `N * N` of line 29. -/
def calcPiDenom (m : IntModel) (N : Int) : Option Int := m.prod (N * N)

/-- Numerator and denominator of the division of line 29,
`(double)cnt / (N * N)`. -/
def calcPiFrac (m : IntModel) (fuel : Nat) (N : Int) : Option (Int × Int) :=
  match calcPiCnt m fuel N with
  | none => none
  | some cnt =>
    match calcPiDenom m N with
    | none => none
    | some d => some (cnt, d)

/-- The value `prob` of line 29 as an exact rational (a `double` holds every
integer below `2^53` exactly; the rounding of the quotient is not modelled). -/
def calcPiProb (m : IntModel) (fuel : Nat) (N : Int) : Option ℚ :=
  (calcPiFrac m fuel N).map (fun p => (p.1 : ℚ) / (p.2 : ℚ))

/-- The argument `6.0 / prob` of `sqrt` in line 31, as an exact rational. -/
def calcPiRadicand (m : IntModel) (fuel : Nat) (N : Int) : Option ℚ :=
  (calcPiProb m fuel N).map (fun p => 6 / p)

/-! ## Reference notions -/

/-- The ordered pairs `(a, b)` with `1 ≤ a ≤ N`, `1 ≤ b ≤ N` whose greatest
common divisor is `1`. -/
def coprimePairs (N : Int) : Finset (Int × Int) :=
  (Finset.Icc 1 N ×ˢ Finset.Icc 1 N).filter (fun p => Int.gcd p.1 p.2 = 1)

/-- The values `b ≤ y ≤ N` coprime to `a`: the pairs of row `a` from column `b` on. -/
def coprimeRow (a b N : Int) : Finset Int :=
  (Finset.Icc b N).filter (fun y => Int.gcd a y = 1)

/-- The coprime ordered pairs of `[1, n] × [1, n]`, counted over natural numbers. -/
def coprimeCount (n : Nat) : Nat :=
  ((Finset.Icc 1 n ×ˢ Finset.Icc 1 n).filter (fun p => Nat.gcd p.1 p.2 = 1)).card

/-- The coprime pairs above the diagonal, `1 ≤ a < b ≤ n`, counted over natural numbers. -/
def upperCount (n : Nat) : Nat :=
  ((Finset.Icc 1 n ×ˢ Finset.Icc 1 n).filter (fun p => p.1 < p.2 ∧ Nat.gcd p.1 p.2 = 1)).card

/-! ## Shortcuts for the count -/

/-- The pairs `(a, b)`, `1 ≤ a < b ≤ N`, for which `mygcd(a, b)` returns `1`: what a
scan restricted to the pairs above the diagonal would count. -/
def upperPairs (N : Int) : Finset (Int × Int) :=
  (Finset.Icc 1 N ×ˢ Finset.Icc 1 N).filter (fun p => p.1 < p.2 ∧ mygcd p.1 p.2 = some 1)

/-- The symmetry shortcut: twice the pairs above the diagonal, plus the diagonal
pair `(1, 1)`. -/
def symmetricCount (N : Int) : Int := 2 * ((upperPairs N).card : Int) + 1

/-- The totient shortcut: `2 * (φ(1) + ... + φ(N)) - 1`. -/
def totientCount (N : Int) : Int :=
  2 * ((∑ k in Finset.Icc 1 N.toNat, Nat.totient k : Nat) : Int) - 1

/-! ## A sieve by small primes -/

/-- The pairs of `[1, M] × [1, M]` without a common divisor in the list `S`. -/
def noCommon (S : List Nat) (M : Nat) : Finset (Nat × Nat) :=
  (Finset.Icc 1 M ×ˢ Finset.Icc 1 M).filter (fun p => ∀ q ∈ S, ¬ (q ∣ p.1 ∧ q ∣ p.2))

/-- Legendre's count of the pairs of `[1, M] × [1, M]` without a common divisor
in a list of distinct primes. -/
def sieveCount : List Nat → Nat → Int
  | [], M => (M : Int) * M
  | q :: S, M => sieveCount S M - sieveCount S (M / q)

/-- The divisors `d ≥ 11` that are neither even nor multiples of `3`; every prime
outside `2, 3, 5, 7` is one of them. -/
def tailDivisor (d : Nat) : Bool := decide (11 ≤ d) && (d % 2 != 0) && (d % 3 != 0)

/-- The sum of `(M / d)^2` over the `tailDivisor`s `d ≤ n`: a bound for the pairs
of `[1, M] × [1, M]` with a common prime divisor outside `2, 3, 5, 7`. -/
def tailSum (M : Nat) : Nat → Nat
  | 0 => 0
  | d + 1 => tailSum M d + (if tailDivisor (d + 1) then (M / (d + 1)) ^ 2 else 0)

/-! ## `main` -/

/-- What `main` takes from outside the two functions above, with `D` standing
for `double`: the two readings of `clock()`, the quotient
`((double)(end - start)) / CLOCKS_PER_SEC` as a function of `end - start`, the
value `sqrt(6.0 / ((double)cnt / d))` that `calcPi` returns as a function of
`cnt` and `d`, and the text `printf` writes for a `%f` argument. -/
structure MainEnv (D : Type) where
  clockStart : Int
  clockEnd : Int
  seconds : Int → D
  estimate : Int → Int → D
  fmtF : D → String

/-- The text `printf` writes for a `%d` argument. -/
def fmtD (n : Int) : String := toString n

/-- What `main` does that can be observed: a reading of the clock, a call of
`calcPi`, a `printf` with the text written. -/
inductive Event where
  | clock : Event
  | callCalcPi : Int → Event
  | printf : String → Event
deriving DecidableEq

/-- The `double` returned by `calcPi(N)` (lines 29-31). -/
def calcPi {D : Type} (env : MainEnv D) (m : IntModel) (fuel : Nat) (N : Int) : Option D :=
  (calcPiFrac m fuel N).map (fun p => env.estimate p.1 p.2)

/-- The function `main` (lines 35-47): the events in the order of execution and
the value returned.  `none` when the call of `calcPi` does not return. -/
def main {D : Type} (env : MainEnv D) (m : IntModel) (fuel : Nat) : Option (List Event × Int) :=
  let N : Int := 10000
  match calcPi env m fuel N with
  | none => none
  | some pi =>
    some ([Event.clock, Event.callCalcPi N, Event.clock,
      Event.printf ("calcPi: " ++ env.fmtF (env.seconds (env.clockEnd - env.clockStart))
        ++ " seconds\n"),
      Event.printf ("N: " ++ fmtD N ++ "\n"),
      Event.printf ("pi: " ++ env.fmtF pi ++ "\n")], 0)

/-- The texts written to standard output, in order. -/
def stdoutOf : List Event → List String
  | [] => []
  | Event.printf t :: es => t :: stdoutOf es
  | _ :: es => stdoutOf es

/-- The calls of `calcPi` made, in order. -/
def calcPiCalls : List Event → List Int
  | [] => []
  | Event.callCalcPi n :: es => n :: calcPiCalls es
  | _ :: es => calcPiCalls es

/-- The number of line ends in a text. -/
def lineEnds (t : String) : Nat := t.toList.count (Char.ofNat 10)

/-! ## The Euclidean loop -/

theorem cRem_natCast (m n : Nat) : cRem (m : Int) (n : Int) = ((m % n : Nat) : Int) := rfl

/-- On natural numbers the loop returns `Nat.gcd` after at most `n` iterations,
whenever the fuel exceeds the second argument. -/
theorem mygcdFuel_natCast (fuel : Nat) : ∀ m n : Nat, n < fuel →
    ∃ k, k ≤ n ∧ mygcdFuel fuel (m : Int) (n : Int) = some ((Nat.gcd m n : Int), k) := by
  induction fuel with
  | zero => intro m n h; omega
  | succ fuel ih =>
    intro m n h
    by_cases hn : n = 0
    · subst hn
      exact ⟨0, le_refl 0, by simp [mygcdFuel]⟩
    · have hlt : m % n < n := Nat.mod_lt _ (Nat.pos_of_ne_zero hn)
      obtain ⟨k, hk, hrun⟩ := ih n (m % n) (by omega)
      refine ⟨k + 1, by omega, ?_⟩
      have hn0 : (n : Int) ≠ 0 := by exact_mod_cast hn
      have hg : Nat.gcd n (m % n) = Nat.gcd m n := by
        rw [Nat.gcd_comm n (m % n), ← Nat.gcd_rec, Nat.gcd_comm]
      rw [mygcdFuel, if_pos hn0, cRem_natCast, hrun, hg]
      rfl

/-- On non-negative integers `mygcd` returns the mathematical gcd. -/
theorem mygcd_of_nonneg (a b : Int) (ha : 0 ≤ a) (hb : 0 ≤ b) :
    mygcd a b = some (Int.gcd a b : Int) := by
  obtain ⟨m, rfl⟩ := Int.eq_ofNat_of_zero_le ha
  obtain ⟨n, rfl⟩ := Int.eq_ofNat_of_zero_le hb
  obtain ⟨k, _, hrun⟩ := mygcdFuel_natCast (n + 1) m n (Nat.lt_succ_self n)
  simp only [mygcd, Int.natAbs_ofNat, hrun, Option.map_some', Int.gcd_natCast_natCast]

/-- The magnitude of the second loop variable drops in every iteration. -/
theorem cRem_natAbs_lt (a b : Int) (hb : b ≠ 0) : (cRem a b).natAbs < b.natAbs := by
  unfold cRem
  have h1 : (Int.tmod a b).natAbs = a.natAbs % b.natAbs := by
    cases a <;> cases b <;> simp [Int.tmod, Int.natAbs_ofNat, Int.natAbs_neg] <;> rfl
  rw [h1]
  exact Nat.mod_lt _ (Int.natAbs_pos.mpr hb)

/-- The loop exits for every pair of integers once the fuel exceeds `|b|`, after
at most `|b|` iterations, and more fuel does not change its result. -/
theorem mygcdFuel_total (fuel : Nat) : ∀ a b : Int, b.natAbs < fuel →
    ∃ g k, k ≤ b.natAbs ∧ ∀ fuel1, fuel ≤ fuel1 → mygcdFuel fuel1 a b = some (g, k) := by
  induction fuel with
  | zero => intro a b h; omega
  | succ fuel ih =>
    intro a b h
    by_cases hb : b = 0
    · subst hb
      refine ⟨a, 0, le_refl 0, ?_⟩
      intro fuel1 h1
      obtain ⟨f, rfl⟩ : ∃ f, fuel1 = f + 1 := ⟨fuel1 - 1, by omega⟩
      simp [mygcdFuel]
    · have hlt := cRem_natAbs_lt a b hb
      obtain ⟨g, k, hk, hrun⟩ := ih b (cRem a b) (by omega)
      refine ⟨g, k + 1, by omega, ?_⟩
      intro fuel1 h1
      obtain ⟨f, rfl⟩ : ∃ f, fuel1 = f + 1 := ⟨fuel1 - 1, by omega⟩
      rw [mygcdFuel, if_pos hb, hrun f (by omega)]
      rfl

/-! ## The scan of `calcPi` -/

theorem coprimeRow_empty (a b N : Int) (h : N < b) : coprimeRow a b N = ∅ := by
  simp [coprimeRow, Finset.Icc_eq_empty_of_lt h]

theorem coprimeRow_step (a b N : Int) (h : b ≤ N) :
    (coprimeRow a b N).card
      = (if Int.gcd a b = 1 then 1 else 0) + (coprimeRow a (b + 1) N).card := by
  have hIcc : Finset.Icc b N = insert b (Finset.Icc (b + 1) N) := by
    ext y
    simp only [Finset.mem_Icc, Finset.mem_insert]
    omega
  have hnot : b ∉ Finset.Icc (b + 1) N := by simp
  unfold coprimeRow
  rw [hIcc, Finset.filter_insert]
  split_ifs with hg
  · rw [Finset.card_insert_of_not_mem (by simp)]
    omega
  · omega

theorem coprimeRow_card_le (a N : Int) (hN : 0 ≤ N) : ((coprimeRow a 1 N).card : Int) ≤ N := by
  have h1 : (coprimeRow a 1 N).card ≤ (Finset.Icc 1 N).card := Finset.card_filter_le _ _
  have h2 : ((Finset.Icc 1 N).card : Int) = N := by
    rw [Int.card_Icc]
    omega
  omega

/-- The inner loop entered at column `b` with `n = N + 1 - b` columns left adds
the coprime columns of the row to the counter and calls `mygcd` once a column,
as long as the model stores loop variables up to `N + 1` and counters up to
`C` exactly. -/
theorem calcPiInner_run (m : IntModel) (N a C : Int) (ha : 0 ≤ a)
    (hv : ∀ x, 0 ≤ x → x ≤ N + 1 → m.var x = some x)
    (hc : ∀ x, 0 ≤ x → x ≤ C → m.acc x = some x) :
    ∀ (n fuel : Nat) (b cnt : Int) (calls : Nat), b + n = N + 1 → n < fuel → 0 ≤ b →
      0 ≤ cnt → cnt + n ≤ C →
      calcPiInner m fuel N a b (cnt, calls)
        = some (cnt + (coprimeRow a b N).card, calls + n) := by
  intro n
  induction n with
  | zero =>
    intro fuel b cnt calls hb hf _ _ _
    obtain ⟨f, rfl⟩ : ∃ f, fuel = f + 1 := ⟨fuel - 1, by omega⟩
    have hlt : N < b := by omega
    rw [calcPiInner, if_neg (by omega), coprimeRow_empty a b N hlt]
    simp
  | succ n ih =>
    intro fuel b cnt calls hb hf hb0 hcnt hC
    obtain ⟨f, rfl⟩ : ∃ f, fuel = f + 1 := ⟨fuel - 1, by omega⟩
    have hle : b ≤ N := by push_cast at hb; omega
    rw [calcPiInner, if_pos hle, mygcd_of_nonneg a b ha hb0, coprimeRow_step a b N hle]
    have hvar : m.var (b + 1) = some (b + 1) := hv _ (by omega) (by omega)
    by_cases hg : Int.gcd a b = 1
    · have hacc : m.acc (cnt + 1) = some (cnt + 1) :=
        hc _ (by omega) (by push_cast at hC; omega)
      simp only [hg, Nat.cast_one, eq_self_iff_true, if_true, hacc, hvar]
      rw [ih f (b + 1) (cnt + 1) (calls + 1) (by push_cast at hb; omega) (by omega)
        (by omega) (by omega) (by push_cast at hC; omega)]
      congr 2
      · push_cast; ring
      · ring
    · have h1 : ¬ ((Int.gcd a b : Nat) : Int) = 1 := by exact_mod_cast hg
      simp only [h1, if_false, hvar, hg]
      rw [ih f (b + 1) cnt (calls + 1) (by push_cast at hb; omega) (by omega)
        (by omega) (by omega) (by push_cast at hC; omega)]
      congr 2
      · push_cast; ring
      · ring

theorem rows_step (N a : Int) (h : a ≤ N) (f : Int → Nat) :
    (∑ x in Finset.Icc a N, f x) = f a + ∑ x in Finset.Icc (a + 1) N, f x := by
  have hIcc : Finset.Icc a N = insert a (Finset.Icc (a + 1) N) := by
    ext y
    simp only [Finset.mem_Icc, Finset.mem_insert]
    omega
  rw [hIcc, Finset.sum_insert (by simp)]

theorem coprimePairs_card (N : Int) :
    (coprimePairs N).card = ∑ x in Finset.Icc 1 N, (coprimeRow x 1 N).card := by
  unfold coprimePairs coprimeRow
  rw [Finset.card_filter, Finset.sum_product]
  refine Finset.sum_congr rfl ?_
  intro x _
  rw [Finset.card_filter]

/-- The outer loop entered at row `a` with `n = N + 1 - a` rows left adds the
coprime pairs of these rows to the counter and calls `mygcd` `N` times a row. -/
theorem calcPiOuter_run (m : IntModel) (N C : Int) (hN : 0 ≤ N)
    (hv : ∀ x, 0 ≤ x → x ≤ N + 1 → m.var x = some x)
    (hc : ∀ x, 0 ≤ x → x ≤ C → m.acc x = some x)
    (fuelIn : Nat) (hfi : N < fuelIn) :
    ∀ (n fuel : Nat) (a cnt : Int) (calls : Nat), a + n = N + 1 → n < fuel → 0 ≤ a →
      0 ≤ cnt → cnt + n * N ≤ C →
      calcPiOuter m fuelIn fuel N a (cnt, calls)
        = some (cnt + ((∑ x in Finset.Icc a N, (coprimeRow x 1 N).card : Nat) : Int),
            calls + n * N.toNat) := by
  intro n
  induction n with
  | zero =>
    intro fuel a cnt calls hb hf _ _ _
    obtain ⟨f, rfl⟩ : ∃ f, fuel = f + 1 := ⟨fuel - 1, by omega⟩
    have hlt : N < a := by omega
    rw [calcPiOuter, if_neg (by omega), Finset.Icc_eq_empty_of_lt hlt]
    simp
  | succ n ih =>
    intro fuel a cnt calls hb hf ha0 hcnt hC
    obtain ⟨f, rfl⟩ : ∃ f, fuel = f + 1 := ⟨fuel - 1, by omega⟩
    have hle : a ≤ N := by push_cast at hb; omega
    have hnN : (0 : Int) ≤ (n : Int) * N := mul_nonneg (Int.ofNat_nonneg n) hN
    have hC1 : cnt + (n : Int) * N + N ≤ C := by
      have : ((n + 1 : Nat) : Int) * N = (n : Int) * N + N := by push_cast; ring
      linarith
    have hrow := coprimeRow_card_le a N hN
    have hinner := calcPiInner_run m N a C ha0 hv hc N.toNat fuelIn 1 cnt calls
      (by omega) (by omega) (by omega) hcnt (by omega)
    have hvar : m.var (a + 1) = some (a + 1) := hv _ (by omega) (by omega)
    rw [calcPiOuter, if_pos hle, hinner]
    simp only [hvar]
    rw [ih f (a + 1) (cnt + (coprimeRow a 1 N).card) (calls + N.toNat)
      (by push_cast at hb; omega) (by omega) (by omega) (by omega) (by omega),
      rows_step N a hle]
    congr 2
    · push_cast; ring
    · ring

/-- The double loop of `calcPi(N)` finishes with the number of coprime pairs in
the counter after `N * N` calls of `mygcd`, for every `N ≥ 0`, every fuel above
`N`, and every model that stores loop variables up to `N + 1` and counters up
to `N * N` exactly. -/
theorem calcPiScan_run (m : IntModel) (N : Int) (hN : 0 ≤ N)
    (hv : ∀ x, 0 ≤ x → x ≤ N + 1 → m.var x = some x)
    (hc : ∀ x, 0 ≤ x → x ≤ N * N → m.acc x = some x)
    (fuel : Nat) (hf : N < fuel) :
    calcPiScan m fuel N = some (((coprimePairs N).card : Int), N.toNat * N.toNat) := by
  have h := calcPiOuter_run m N (N * N) hN hv hc fuel hf N.toNat fuel 1 0 0
    (by omega) (by omega) (by omega) (le_refl 0)
    (by rw [Int.toNat_of_nonneg hN]; omega)
  rw [calcPiScan, h, coprimePairs_card]
  simp

/-! ## Integer models -/

theorem wrapInt_of_range (x : Int) (h1 : INT_MIN ≤ x) (h2 : x ≤ INT_MAX) : wrapInt x = x := by
  unfold INT_MIN at h1
  unfold INT_MAX at h2
  unfold wrapInt
  omega

theorem storeWithin_of_range (lo hi x : Int) (h1 : lo ≤ x) (h2 : x ≤ hi) :
    storeWithin lo hi x = some x := by
  simp [storeWithin, h1, h2]

theorem coprimePairs_one_mem (N : Int) (hN : 1 ≤ N) : ((1 : Int), (1 : Int)) ∈ coprimePairs N := by
  simp [coprimePairs, Finset.mem_Icc, hN]

theorem coprimePairs_card_pos (N : Int) (hN : 1 ≤ N) : 0 < (coprimePairs N).card :=
  Finset.card_pos.mpr ⟨_, coprimePairs_one_mem N hN⟩

theorem coprimePairs_card_le (N : Int) (hN : 0 ≤ N) : ((coprimePairs N).card : Int) ≤ N * N := by
  have h1 : (coprimePairs N).card ≤ (Finset.Icc 1 N ×ˢ Finset.Icc 1 N).card :=
    Finset.card_filter_le _ _
  have h2 : ((Finset.Icc (1 : Int) N).card : Int) = N := by
    rw [Int.card_Icc]
    omega
  rw [Finset.card_product] at h1
  have h3 : (((Finset.Icc (1 : Int) N).card * (Finset.Icc (1 : Int) N).card : Nat) : Int)
      = N * N := by
    push_cast
    rw [h2]
  have h4 : ((coprimePairs N).card : Int)
      ≤ (((Finset.Icc (1 : Int) N).card * (Finset.Icc (1 : Int) N).card : Nat) : Int) := by
    exact_mod_cast h1
  rw [h3] at h4
  exact h4

/-- Under 32-bit wrap-around the scan agrees with the scan over unbounded
integers as long as `N * N` does not exceed `INT_MAX`. -/
theorem calcPiScan_wrap32 (N : Int) (hN : 0 ≤ N) (hNN : N * N ≤ INT_MAX)
    (fuel : Nat) (hf : N < fuel) :
    calcPiScan IntModel.wrap32 fuel N
      = some (((coprimePairs N).card : Int), N.toNat * N.toNat) := by
  have hmax : N + 1 ≤ INT_MAX := by
    unfold INT_MAX at hNN ⊢
    nlinarith
  refine calcPiScan_run IntModel.wrap32 N hN ?_ ?_ fuel hf
  · intro x hx0 hx
    show some (wrapInt x) = some x
    rw [wrapInt_of_range x (by unfold INT_MIN; omega) (by omega)]
  · intro x hx0 hx
    show some (wrapInt x) = some x
    rw [wrapInt_of_range x (by unfold INT_MIN; omega) (by omega)]

/-- Over unbounded integers the scan finishes for every `N ≥ 0`. -/
theorem calcPiScan_exact (N : Int) (hN : 0 ≤ N) (fuel : Nat) (hf : N < fuel) :
    calcPiScan IntModel.exact fuel N
      = some (((coprimePairs N).card : Int), N.toNat * N.toNat) :=
  calcPiScan_run IntModel.exact N hN (fun _ _ _ => rfl) (fun _ _ _ => rfl) fuel hf

/-! ## Properties of `mygcd` -/

/-- C1: for all integers `a ≥ 1`, `b ≥ 1`, `mygcd(a, b)` returns a value that
divides `a`, divides `b`, and is at least as large as every integer dividing both;
and `mygcd(12, 18) = 6`, `mygcd(17, 5) = 1`, `mygcd(100, 10) = 10`,
`mygcd(7, 7) = 7`. -/
theorem mygcd_greatest_common_divisor :
    (∀ a b : Int, 1 ≤ a → 1 ≤ b →
      ∃ g : Int, mygcd a b = some g ∧ g ∣ a ∧ g ∣ b ∧ ∀ d : Int, d ∣ a → d ∣ b → d ≤ g) ∧
    mygcd 12 18 = some 6 ∧ mygcd 17 5 = some 1 ∧ mygcd 100 10 = some 10 ∧
    mygcd 7 7 = some 7 := by
  refine ⟨?_, by decide, by decide, by decide, by decide⟩
  intro a b ha hb
  refine ⟨(Int.gcd a b : Int), mygcd_of_nonneg a b (by omega) (by omega),
    Int.gcd_dvd_left, Int.gcd_dvd_right, ?_⟩
  intro d hda hdb
  have hpos : 0 < Int.gcd a b := Int.gcd_pos_of_ne_zero_left b (by omega)
  exact Int.le_of_dvd (by exact_mod_cast hpos) (Int.dvd_gcd hda hdb)

theorem mygcd_greatest_common_divisor_witness :
    ∃ g : Int, mygcd 1000 350 = some g ∧ g ∣ 1000 ∧ g ∣ 350 ∧
      ∀ d : Int, d ∣ 1000 → d ∣ 350 → d ≤ g :=
  mygcd_greatest_common_divisor.1 1000 350 (by decide) (by decide)

/-- C5: for all integers `a ≥ 1`, `b ≥ 1`, `mygcd(a, b)` and `mygcd(b, a)` return
the same value. -/
theorem mygcd_symmetric (a b : Int) (ha : 1 ≤ a) (hb : 1 ≤ b) :
    ∃ g : Int, mygcd a b = some g ∧ mygcd b a = some g := by
  refine ⟨(Int.gcd a b : Int), mygcd_of_nonneg a b (by omega) (by omega), ?_⟩
  rw [mygcd_of_nonneg b a (by omega) (by omega), Int.gcd_comm]

theorem mygcd_symmetric_witness :
    (1 : Int) ≤ 12 ∧ (1 : Int) ≤ 18 ∧ ∃ g : Int, mygcd 12 18 = some g ∧ mygcd 18 12 = some g :=
  ⟨by decide, by decide, mygcd_symmetric 12 18 (by decide) (by decide)⟩

/-- C6: for every integer `a ≥ 1`, `mygcd(a, a) = a` and `mygcd(a, 1) = 1`. -/
theorem mygcd_identity (a : Int) (ha : 1 ≤ a) :
    mygcd a a = some a ∧ mygcd a 1 = some 1 := by
  constructor
  · rw [mygcd_of_nonneg a a (by omega) (by omega), Int.gcd_self, Int.natAbs_of_nonneg (by omega)]
  · rw [mygcd_of_nonneg a 1 (by omega) (by omega)]
    simp

theorem mygcd_identity_witness :
    (1 : Int) ≤ 7 ∧ mygcd 7 7 = some 7 ∧ mygcd 7 1 = some 1 :=
  ⟨by decide, mygcd_identity 7 (by decide)⟩

/-- C7: for every integer `a` (positive, zero or negative) the loop of
`mygcd(a, 0)` exits at its first test, after zero iterations, and `mygcd`
returns `a` unchanged. -/
theorem mygcd_zero_right (a : Int) :
    (∀ fuel : Nat, mygcdFuel (fuel + 1) a 0 = some (a, 0)) ∧ mygcd a 0 = some a := by
  constructor
  · intro fuel
    simp [mygcdFuel]
  · simp [mygcd, mygcdFuel]

/-- C8: for non-negative integers `a`, `b` not both zero the loop of `mygcd`
exits: every iteration entered with a nonzero second element `y` replaces it by
`x % y`, of strictly smaller magnitude, so that with any fuel above `b` the
loop returns after at most `b` iterations, and `mygcd(a, b)` returns (a
positive value). -/
theorem mygcd_terminates (a b : Int) (ha : 0 ≤ a) (hb : 0 ≤ b) (hab : a ≠ 0 ∨ b ≠ 0) :
    (∀ x y : Int, y ≠ 0 → (cRem x y).natAbs < y.natAbs) ∧
    ∃ (g : Int) (k : Nat), k ≤ b.natAbs ∧
      (∀ fuel : Nat, b.natAbs < fuel → mygcdFuel fuel a b = some (g, k)) ∧
      mygcd a b = some g ∧ 0 < g := by
  refine ⟨cRem_natAbs_lt, ?_⟩
  obtain ⟨g, k, hk, hrun⟩ := mygcdFuel_total (b.natAbs + 1) a b (Nat.lt_succ_self _)
  have hret : mygcd a b = some g := by
    rw [mygcd, hrun _ (le_refl _)]
    rfl
  refine ⟨g, k, hk, ?_, hret, ?_⟩
  · intro fuel hf
    exact hrun fuel (by omega)
  · rw [mygcd_of_nonneg a b ha hb] at hret
    have hg : (Int.gcd a b : Int) = g := Option.some.inj hret
    have hne : Int.gcd a b ≠ 0 := by
      intro h0
      rw [Int.gcd_eq_zero_iff] at h0
      rcases hab with h | h
      · exact h h0.1
      · exact h h0.2
    have hpos : 0 < Int.gcd a b := Nat.pos_of_ne_zero hne
    rw [← hg]
    exact_mod_cast hpos

theorem mygcd_terminates_witness :
    (∀ x y : Int, y ≠ 0 → (cRem x y).natAbs < y.natAbs) ∧
    ∃ (g : Int) (k : Nat), k ≤ (18 : Int).natAbs ∧
      (∀ fuel : Nat, (18 : Int).natAbs < fuel → mygcdFuel fuel 12 18 = some (g, k)) ∧
      mygcd 12 18 = some g ∧ 0 < g :=
  mygcd_terminates 12 18 (by decide) (by decide) (Or.inl (by decide))

/-! ## Properties of `calcPi` -/

theorem mem_coprimePairs (N a b : Int) :
    (a, b) ∈ coprimePairs N ↔ (1 ≤ a ∧ a ≤ N) ∧ (1 ≤ b ∧ b ≤ N) ∧ Int.gcd a b = 1 := by
  simp [coprimePairs, Finset.mem_Icc, and_assoc]

theorem calcPiCnt_of_scan (m : IntModel) (fuel : Nat) (N cnt : Int) (calls : Nat)
    (h : calcPiScan m fuel N = some (cnt, calls)) : calcPiCnt m fuel N = some cnt := by
  simp [calcPiCnt, h]

theorem calcPiFrac_of_scan (m : IntModel) (fuel : Nat) (N cnt d : Int) (calls : Nat)
    (h : calcPiScan m fuel N = some (cnt, calls)) (hd : calcPiDenom m N = some d) :
    calcPiFrac m fuel N = some (cnt, d) := by
  simp [calcPiFrac, calcPiCnt_of_scan m fuel N cnt calls h, hd]

theorem calcPiProb_of_frac (m : IntModel) (fuel : Nat) (N cnt d : Int)
    (h : calcPiFrac m fuel N = some (cnt, d)) :
    calcPiProb m fuel N = some ((cnt : ℚ) / (d : ℚ)) := by
  simp [calcPiProb, h]

theorem calcPiRadicand_of_frac (m : IntModel) (fuel : Nat) (N cnt d : Int)
    (h : calcPiFrac m fuel N = some (cnt, d)) :
    calcPiRadicand m fuel N = some (6 / ((cnt : ℚ) / (d : ℚ))) := by
  simp [calcPiRadicand, calcPiProb_of_frac m fuel N cnt d h]

/-- C3: `calcPi(1)` counts `1` coprime pair out of `1`, its probability is `1`
and its estimate is `sqrt 6`; `calcPi(2)` counts the `3` coprime pairs `(1,1)`,
`(1,2)`, `(2,1)` (not `(2,2)`) out of `4`, its probability is `3/4`, which is
not the `0` of the integer division `3 / 4`, and its estimate is `sqrt 8`.
This holds with any fuel above `2`, over unbounded integers and with 32-bit
wrap-around alike. -/
theorem calcPi_small_N (fuel : Nat) (hf : 2 < fuel) :
    (calcPiScan IntModel.exact fuel 1 = some (1, 1) ∧
      calcPiFrac IntModel.exact fuel 1 = some (1, 1) ∧
      calcPiFrac IntModel.wrap32 fuel 1 = some (1, 1) ∧
      calcPiProb IntModel.exact fuel 1 = some 1 ∧
      (calcPiRadicand IntModel.exact fuel 1).map (fun q => Real.sqrt (q : ℝ))
        = some (Real.sqrt 6)) ∧
    (coprimePairs 2 = {(1, 1), (1, 2), (2, 1)} ∧ ((2 : Int), (2 : Int)) ∉ coprimePairs 2 ∧
      calcPiScan IntModel.exact fuel 2 = some (3, 4) ∧
      calcPiFrac IntModel.exact fuel 2 = some (3, 4) ∧
      calcPiFrac IntModel.wrap32 fuel 2 = some (3, 4) ∧
      calcPiProb IntModel.exact fuel 2 = some (3 / 4) ∧
      (3 / 4 : ℚ) ≠ (((3 / 4 : Int) : ℚ)) ∧
      (calcPiRadicand IntModel.exact fuel 2).map (fun q => Real.sqrt (q : ℝ))
        = some (Real.sqrt 8)) := by
  have c1 : ((coprimePairs 1).card : Int) = 1 := by decide
  have c2 : ((coprimePairs 2).card : Int) = 3 := by decide
  have s1 : calcPiScan IntModel.exact fuel 1 = some (1, 1) := by
    rw [calcPiScan_exact 1 (by decide) fuel (by omega), c1]
    rfl
  have s2 : calcPiScan IntModel.exact fuel 2 = some (3, 4) := by
    rw [calcPiScan_exact 2 (by decide) fuel (by omega), c2]
    rfl
  have w1 : calcPiScan IntModel.wrap32 fuel 1 = some (1, 1) := by
    rw [calcPiScan_wrap32 1 (by decide) (by decide) fuel (by omega), c1]
    rfl
  have w2 : calcPiScan IntModel.wrap32 fuel 2 = some (3, 4) := by
    rw [calcPiScan_wrap32 2 (by decide) (by decide) fuel (by omega), c2]
    rfl
  have f1 := calcPiFrac_of_scan IntModel.exact fuel 1 1 1 1 s1 (by decide)
  have f2 := calcPiFrac_of_scan IntModel.exact fuel 2 3 4 4 s2 (by decide)
  refine ⟨⟨s1, f1, calcPiFrac_of_scan IntModel.wrap32 fuel 1 1 1 1 w1 (by decide), ?_, ?_⟩,
    ⟨by decide, by decide, s2, f2,
      calcPiFrac_of_scan IntModel.wrap32 fuel 2 3 4 4 w2 (by decide), ?_, ?_, ?_⟩⟩
  · rw [calcPiProb_of_frac _ _ _ _ _ f1]
    norm_num
  · rw [calcPiRadicand_of_frac _ _ _ _ _ f1]
    norm_num
  · rw [calcPiProb_of_frac _ _ _ _ _ f2]
    norm_num
  · norm_num
  · rw [calcPiRadicand_of_frac _ _ _ _ _ f2]
    norm_num

theorem calcPi_small_N_witness :
    calcPiFrac IntModel.exact 3 1 = some (1, 1) ∧ calcPiFrac IntModel.exact 3 2 = some (3, 4) :=
  ⟨(calcPi_small_N 3 (by decide)).1.2.1, (calcPi_small_N 3 (by decide)).2.2.2.2.1⟩

/-! ## 32-bit arithmetic in `calcPi` -/

/-- With `0 ≤ N ≤ 46340` the `int` product `N * N` is the exact square. -/
theorem calcPiDenom_wrap32_of_le (N : Int) (h0 : 0 ≤ N) (h1 : N ≤ 46340) :
    calcPiDenom IntModel.wrap32 N = some (N * N) ∧
    calcPiDenom IntModel.checked32 N = some (N * N) := by
  have hlo : 0 ≤ N * N := mul_nonneg h0 h0
  have hhi : N * N ≤ INT_MAX := by
    unfold INT_MAX
    nlinarith
  constructor
  · show some (wrapInt (N * N)) = some (N * N)
    rw [wrapInt_of_range _ (by unfold INT_MIN; omega) hhi]
  · exact storeWithin_of_range _ _ _ (by unfold INT_MIN; omega) hhi

/-- C9, evaluated on the code: at `N = 46341` the exact square is
`2147488281 > INT_MAX`; the `int` product of line 29 overflows, and with
wrap-around the denominator is `-2147479015`.  At `N = 65536` the wrapped
denominator is `0`. -/
theorem calcPi_denominator_overflow :
    calcPiDenom IntModel.exact 46341 = some 2147488281 ∧
    INT_MAX < 2147488281 ∧
    calcPiDenom IntModel.checked32 46341 = none ∧
    calcPiDenom IntModel.wrap32 46341 = some (-2147479015) ∧
    calcPiDenom IntModel.wrap32 65536 = some 0 := by
  refine ⟨by decide, by decide, by decide, by decide, by decide⟩

/-- C10: for `N = 10000` and any fuel above `N` the scan finishes with the same
counter `cnt ≤ 10^8 ≤ INT_MAX` after `10^8` calls of `mygcd` over unbounded
integers, with 32-bit wrap-around, with overflow checked, and when no loop
variable above `10001` and no counter above `10^8` can be stored; the
denominator `N * N` is `10^8` in each of these models. -/
theorem calcPi_reference_fits_int32 (fuel : Nat) (hf : 10000 < fuel) :
    ∃ cnt : Int, 0 < cnt ∧ cnt ≤ 100000000 ∧ (100000000 : Int) ≤ INT_MAX ∧
      calcPiScan IntModel.exact fuel 10000 = some (cnt, 100000000) ∧
      calcPiScan IntModel.wrap32 fuel 10000 = some (cnt, 100000000) ∧
      calcPiScan IntModel.checked32 fuel 10000 = some (cnt, 100000000) ∧
      calcPiScan (IntModel.within 10001 100000000 100000000) fuel 10000
        = some (cnt, 100000000) ∧
      calcPiDenom IntModel.exact 10000 = some 100000000 ∧
      calcPiDenom IntModel.wrap32 10000 = some 100000000 ∧
      calcPiDenom IntModel.checked32 10000 = some 100000000 ∧
      calcPiDenom (IntModel.within 10001 100000000 100000000) 10000 = some 100000000 ∧
      calcPiFrac IntModel.exact fuel 10000 = some (cnt, 100000000) ∧
      calcPiFrac IntModel.wrap32 fuel 10000 = some (cnt, 100000000) := by
  have hcalls : (10000 : Int).toNat * (10000 : Int).toNat = 100000000 := by decide
  have hfuel : (10000 : Int) < fuel := by exact_mod_cast hf
  have hpos : (0 : Int) < ((coprimePairs 10000).card : Int) := by
    exact_mod_cast coprimePairs_card_pos 10000 (by decide)
  have hle : ((coprimePairs 10000).card : Int) ≤ 100000000 :=
    coprimePairs_card_le 10000 (by decide)
  have he := calcPiScan_exact 10000 (by decide) fuel hfuel
  have hw := calcPiScan_wrap32 10000 (by decide) (by decide) fuel hfuel
  have hc : calcPiScan IntModel.checked32 fuel 10000
      = some (((coprimePairs 10000).card : Int), (10000 : Int).toNat * (10000 : Int).toNat) := by
    refine calcPiScan_run IntModel.checked32 10000 (by decide) ?_ ?_ fuel hfuel
    · intro x hx0 hx
      exact storeWithin_of_range _ _ _ (by unfold INT_MIN; omega) (by unfold INT_MAX; omega)
    · intro x hx0 hx
      exact storeWithin_of_range _ _ _ (by unfold INT_MIN; omega) (by unfold INT_MAX; omega)
  have hb : calcPiScan (IntModel.within 10001 100000000 100000000) fuel 10000
      = some (((coprimePairs 10000).card : Int), (10000 : Int).toNat * (10000 : Int).toNat) := by
    refine calcPiScan_run _ 10000 (by decide) ?_ ?_ fuel hfuel
    · intro x hx0 hx
      exact storeWithin_of_range _ _ _ hx0 (by omega)
    · intro x hx0 hx
      exact storeWithin_of_range _ _ _ hx0 (by omega)
  rw [hcalls] at he hw hc hb
  exact ⟨_, hpos, hle, by decide, he, hw, hc, hb, by decide, by decide, by decide, by decide,
    calcPiFrac_of_scan _ _ _ _ _ _ he (by decide),
    calcPiFrac_of_scan _ _ _ _ _ _ hw (by decide)⟩

theorem calcPi_reference_fits_int32_witness :
    ∃ cnt : Int, 0 < cnt ∧ cnt ≤ 100000000 ∧ (100000000 : Int) ≤ INT_MAX ∧
      calcPiScan IntModel.exact 10001 10000 = some (cnt, 100000000) ∧
      calcPiScan IntModel.wrap32 10001 10000 = some (cnt, 100000000) ∧
      calcPiScan IntModel.checked32 10001 10000 = some (cnt, 100000000) ∧
      calcPiScan (IntModel.within 10001 100000000 100000000) 10001 10000
        = some (cnt, 100000000) ∧
      calcPiDenom IntModel.exact 10000 = some 100000000 ∧
      calcPiDenom IntModel.wrap32 10000 = some 100000000 ∧
      calcPiDenom IntModel.checked32 10000 = some 100000000 ∧
      calcPiDenom (IntModel.within 10001 100000000 100000000) 10000 = some 100000000 ∧
      calcPiFrac IntModel.exact 10001 10000 = some (cnt, 100000000) ∧
      calcPiFrac IntModel.wrap32 10001 10000 = some (cnt, 100000000) :=
  calcPi_reference_fits_int32 10001 (by decide)

/-! ## Inputs outside the domain of the estimator -/

theorem calcPiScan_of_nonpos (m : IntModel) (N : Int) (hN : N ≤ 0) (fuel : Nat) :
    calcPiScan m (fuel + 1) N = some (0, 0) := by
  rw [calcPiScan, calcPiOuter, if_neg (by omega)]

theorem cRem_natAbs (a b : Int) : (cRem a b).natAbs = a.natAbs % b.natAbs := by
  unfold cRem
  cases a <;> cases b <;> simp [Int.tmod, Int.natAbs_ofNat, Int.natAbs_neg] <;> rfl

/-- For every pair of integers the loop returns a value whose magnitude is the
gcd of the magnitudes, whenever the fuel exceeds `|b|`. -/
theorem mygcdFuel_natAbs (fuel : Nat) : ∀ a b : Int, b.natAbs < fuel →
    ∃ g k, mygcdFuel fuel a b = some (g, k) ∧ g.natAbs = Nat.gcd a.natAbs b.natAbs := by
  induction fuel with
  | zero => intro a b h; omega
  | succ fuel ih =>
    intro a b h
    by_cases hb : b = 0
    · subst hb
      exact ⟨a, 0, by simp [mygcdFuel], by simp⟩
    · have hlt := cRem_natAbs_lt a b hb
      obtain ⟨g, k, hrun, hg⟩ := ih b (cRem a b) (by omega)
      refine ⟨g, k + 1, ?_, ?_⟩
      · rw [mygcdFuel, if_pos hb, hrun]
        rfl
      · rw [hg, cRem_natAbs, Nat.gcd_comm b.natAbs, ← Nat.gcd_rec, Nat.gcd_comm]

/-- C16: for all integers `a`, `b` with `-2^31 < a, b < 2^31` the loop of `mygcd`
exits (with any fuel above `|b|`), and the value returned has the magnitude
`gcd(|a|, |b|)` (which is `0` for `a = b = 0`) and is an `int` above `INT_MIN`.
The value can be negative: `mygcd(4, -6) = -2`. -/
theorem mygcd_up_to_sign (a b : Int) (ha1 : INT_MIN < a) (ha2 : a ≤ INT_MAX)
    (hb1 : INT_MIN < b) (hb2 : b ≤ INT_MAX) :
    (∃ (g : Int) (k : Nat), (∀ fuel : Nat, b.natAbs < fuel → mygcdFuel fuel a b = some (g, k)) ∧
      mygcd a b = some g ∧ g.natAbs = Nat.gcd a.natAbs b.natAbs ∧
      INT_MIN < g ∧ g ≤ INT_MAX) ∧
    Nat.gcd (0 : Int).natAbs (0 : Int).natAbs = 0 ∧ mygcd 0 0 = some 0 ∧
    mygcd 4 (-6) = some (-2) ∧ Nat.gcd (4 : Int).natAbs (-6 : Int).natAbs = 2 := by
  refine ⟨?_, by decide, by decide, by decide, by decide⟩
  obtain ⟨g, k, _, hrun⟩ := mygcdFuel_total (b.natAbs + 1) a b (Nat.lt_succ_self _)
  obtain ⟨g1, k1, hrun1, hg⟩ := mygcdFuel_natAbs (b.natAbs + 1) a b (Nat.lt_succ_self _)
  have hsame := hrun (b.natAbs + 1) (le_refl _)
  rw [hrun1] at hsame
  have hgg : g1 = g := congrArg Prod.fst (Option.some.inj hsame)
  subst hgg
  have hbound : g1.natAbs ≤ 2147483647 := by
    rw [hg]
    unfold INT_MIN at ha1 hb1
    unfold INT_MAX at ha2 hb2
    by_cases hb : b = 0
    · subst hb
      simp only [Int.natAbs_zero, Nat.gcd_zero_right]
      omega
    · have : Nat.gcd a.natAbs b.natAbs ≤ b.natAbs :=
        Nat.gcd_le_right _ (Int.natAbs_pos.mpr hb)
      omega
  refine ⟨g1, k, fun fuel hf => hrun fuel (by omega), ?_, hg, ?_, ?_⟩
  · rw [mygcd, hrun1]
    rfl
  · unfold INT_MIN; omega
  · unfold INT_MAX; omega

theorem mygcd_up_to_sign_witness :
    ∃ (g : Int) (k : Nat),
      (∀ fuel : Nat, (-18 : Int).natAbs < fuel → mygcdFuel fuel (-12) (-18) = some (g, k)) ∧
      mygcd (-12) (-18) = some g ∧ g.natAbs = Nat.gcd (-12 : Int).natAbs (-18 : Int).natAbs ∧
      INT_MIN < g ∧ g ≤ INT_MAX :=
  (mygcd_up_to_sign (-12) (-18) (by decide) (by decide) (by decide) (by decide)).1

/-! ## The count over natural numbers -/

/-- Counting pairs of integers in `[1, n] × [1, n]` is counting pairs of natural
numbers. -/
theorem card_filter_natCast (n : Nat) (P : Int × Int → Prop) [DecidablePred P]
    (Q : Nat × Nat → Prop) [DecidablePred Q]
    (h : ∀ a b : Nat, P ((a : Int), (b : Int)) ↔ Q (a, b)) :
    ((Finset.Icc (1 : Int) n ×ˢ Finset.Icc (1 : Int) n).filter P).card
      = ((Finset.Icc 1 n ×ˢ Finset.Icc 1 n).filter Q).card := by
  symm
  refine Finset.card_bij (fun p _ => ((p.1 : Int), (p.2 : Int))) ?_ ?_ ?_
  · intro p hp
    simp only [Finset.mem_filter, Finset.mem_product, Finset.mem_Icc] at hp ⊢
    refine ⟨⟨⟨by omega, by omega⟩, ⟨by omega, by omega⟩⟩, (h p.1 p.2).mpr hp.2⟩
  · intro p _ q _ hpq
    simp only [Prod.mk.injEq, Nat.cast_inj] at hpq
    exact Prod.ext hpq.1 hpq.2
  · intro q hq
    simp only [Finset.mem_filter, Finset.mem_product, Finset.mem_Icc] at hq
    have h1 : ((q.1.toNat : Nat) : Int) = q.1 := Int.toNat_of_nonneg (by omega)
    have h2 : ((q.2.toNat : Nat) : Int) = q.2 := Int.toNat_of_nonneg (by omega)
    refine ⟨(q.1.toNat, q.2.toNat), ?_, ?_⟩
    · simp only [Finset.mem_filter, Finset.mem_product, Finset.mem_Icc]
      refine ⟨⟨⟨by omega, by omega⟩, ⟨by omega, by omega⟩⟩, ?_⟩
      rw [← h, h1, h2]
      exact hq.2
    · exact Prod.ext h1 h2

theorem coprimePairs_card_nat (n : Nat) : (coprimePairs (n : Int)).card = coprimeCount n := by
  unfold coprimePairs coprimeCount
  exact card_filter_natCast n _ _ (fun a b => by simp [Int.gcd_natCast_natCast])

theorem upperPairs_card_nat (n : Nat) : (upperPairs (n : Int)).card = upperCount n := by
  unfold upperPairs upperCount
  refine card_filter_natCast n _ _ (fun a b => ?_)
  rw [mygcd_of_nonneg _ _ (Int.ofNat_nonneg a) (Int.ofNat_nonneg b), Int.gcd_natCast_natCast]
  simp only [Nat.cast_lt, Option.some.injEq]
  constructor
  · rintro ⟨h1, h2⟩
    exact ⟨h1, by exact_mod_cast h2⟩
  · rintro ⟨h1, h2⟩
    exact ⟨h1, by exact_mod_cast h2⟩

/-- The coprime pairs are those above the diagonal, their mirror images, and
the pair `(1, 1)`. -/
theorem coprimeCount_eq_upper (n : Nat) (hn : 1 ≤ n) : coprimeCount n = 2 * upperCount n + 1 := by
  unfold coprimeCount upperCount
  set s := Finset.Icc 1 n ×ˢ Finset.Icc 1 n with hs
  set C := s.filter (fun p => Nat.gcd p.1 p.2 = 1) with hC
  have h1 := Finset.filter_card_add_filter_neg_card_eq_card (s := C)
    (fun p : Nat × Nat => p.1 < p.2)
  have h2 := Finset.filter_card_add_filter_neg_card_eq_card
    (s := C.filter (fun p => ¬ p.1 < p.2)) (fun p : Nat × Nat => p.2 < p.1)
  have hU : C.filter (fun p => p.1 < p.2)
      = s.filter (fun p => p.1 < p.2 ∧ Nat.gcd p.1 p.2 = 1) := by
    ext p
    simp only [hC, Finset.mem_filter]
    tauto
  have hV : ((C.filter (fun p => ¬ p.1 < p.2)).filter (fun p => p.2 < p.1)).card
      = (C.filter (fun p => p.1 < p.2)).card := by
    refine Finset.card_bij (fun p _ => (p.2, p.1)) ?_ ?_ ?_
    · intro p hp
      simp only [hC, hs, Finset.mem_filter, Finset.mem_product, Finset.mem_Icc] at hp ⊢
      refine ⟨⟨⟨hp.1.1.1.2, hp.1.1.1.1⟩, ?_⟩, hp.2⟩
      rw [Nat.gcd_comm]
      exact hp.1.1.2
    · intro p _ q _ hpq
      simp only [Prod.mk.injEq] at hpq
      exact Prod.ext hpq.2 hpq.1
    · intro q hq
      simp only [hC, hs, Finset.mem_filter, Finset.mem_product, Finset.mem_Icc] at hq
      refine ⟨(q.2, q.1), ?_, rfl⟩
      simp only [hC, hs, Finset.mem_filter, Finset.mem_product, Finset.mem_Icc]
      refine ⟨⟨⟨⟨hq.1.1.2, hq.1.1.1⟩, ?_⟩, by omega⟩, hq.2⟩
      rw [Nat.gcd_comm]
      exact hq.1.2
  have hW : (C.filter (fun p => ¬ p.1 < p.2)).filter (fun p => ¬ p.2 < p.1) = {(1, 1)} := by
    ext p
    simp only [hC, hs, Finset.mem_filter, Finset.mem_product, Finset.mem_Icc,
      Finset.mem_singleton]
    constructor
    · rintro ⟨⟨⟨_, hg⟩, h3⟩, h4⟩
      have he : p.1 = p.2 := by omega
      rw [he, Nat.gcd_self] at hg
      exact Prod.ext (by rw [he, hg]) hg
    · intro hp
      subst hp
      simp [hn]
  rw [hW, Finset.card_singleton, hV] at h2
  rw [← hU]
  omega

/-- The coprime pairs above the diagonal with a given larger element `b` are
counted by `φ(b)`, except that `φ(1) = 1` counts the diagonal pair `(1, 1)`. -/
theorem upperCount_add_one (n : Nat) (hn : 1 ≤ n) :
    upperCount n + 1 = ∑ k in Finset.Icc 1 n, Nat.totient k := by
  have hrow : ∀ b ∈ Finset.Icc 1 n,
      ((Finset.Icc 1 n).filter (fun a => a < b ∧ Nat.gcd a b = 1)).card
        + (if b = 1 then 1 else 0) = Nat.totient b := by
    intro b hb
    rw [Finset.mem_Icc] at hb
    by_cases hb1 : b = 1
    · subst hb1
      have : (Finset.Icc 1 n).filter (fun a => a < 1 ∧ Nat.gcd a 1 = 1) = ∅ := by
        ext a
        simp only [Finset.mem_filter, Finset.mem_Icc, Finset.not_mem_empty, iff_false]
        omega
      rw [this]
      rfl
    · rw [Nat.totient_eq_card_coprime, if_neg hb1, add_zero]
      congr 1
      ext a
      simp only [Finset.mem_filter, Finset.mem_Icc, Finset.mem_range, Nat.Coprime]
      constructor
      · rintro ⟨_, h2, h3⟩
        exact ⟨h2, by rw [Nat.gcd_comm]; exact h3⟩
      · rintro ⟨h2, h3⟩
        have ha : a ≠ 0 := by
          intro h0
          subst h0
          rw [Nat.gcd_zero_right] at h3
          exact hb1 h3
        exact ⟨⟨by omega, by omega⟩, h2, by rw [Nat.gcd_comm]; exact h3⟩
  have hsum : upperCount n
      = ∑ b in Finset.Icc 1 n,
          ((Finset.Icc 1 n).filter (fun a => a < b ∧ Nat.gcd a b = 1)).card := by
    unfold upperCount
    rw [Finset.card_filter, Finset.sum_product_right]
    refine Finset.sum_congr rfl ?_
    intro b _
    rw [Finset.card_filter]
  have hone : (∑ b in Finset.Icc 1 n, (if b = 1 then 1 else 0)) = 1 := by
    rw [Finset.sum_ite_eq', if_pos (Finset.mem_Icc.mpr ⟨le_refl 1, hn⟩)]
  rw [← Finset.sum_congr rfl hrow, Finset.sum_add_distrib, hone, hsum]

theorem coprimePairs_card_symmetric (N : Int) (hN : 1 ≤ N) :
    ((coprimePairs N).card : Int) = symmetricCount N := by
  obtain ⟨n, rfl⟩ := Int.eq_ofNat_of_zero_le (show 0 ≤ N by omega)
  have hn : 1 ≤ n := by exact_mod_cast hN
  rw [symmetricCount, coprimePairs_card_nat, upperPairs_card_nat, coprimeCount_eq_upper n hn]
  push_cast
  ring

theorem coprimePairs_card_totient (N : Int) (hN : 1 ≤ N) :
    ((coprimePairs N).card : Int) = totientCount N := by
  obtain ⟨n, rfl⟩ := Int.eq_ofNat_of_zero_le (show 0 ≤ N by omega)
  have hn : 1 ≤ n := by exact_mod_cast hN
  rw [totientCount, coprimePairs_card_nat, coprimeCount_eq_upper n hn, Int.toNat_ofNat,
    ← upperCount_add_one n hn]
  push_cast
  ring

/-! ## Bounds for the count by a sieve -/

/-- Removing the pairs with the common divisor `q` from the pairs without a
common divisor in `S`: those removed are the `q`-fold of the pairs of
`[1, M / q]` without a common divisor in `S`. -/
theorem noCommon_cons_card (q : Nat) (S : List Nat) (M : Nat) (hq : 0 < q)
    (hS : ∀ r ∈ S, Nat.Coprime r q) :
    ((noCommon (q :: S) M).card : Int)
      = ((noCommon S M).card : Int) - ((noCommon S (M / q)).card : Int) := by
  have hsplit := Finset.filter_card_add_filter_neg_card_eq_card (s := noCommon S M)
    (fun p : Nat × Nat => q ∣ p.1 ∧ q ∣ p.2)
  have hcons : noCommon (q :: S) M
      = (noCommon S M).filter (fun p => ¬ (q ∣ p.1 ∧ q ∣ p.2)) := by
    ext p
    simp only [noCommon, Finset.mem_filter, List.forall_mem_cons]
    tauto
  have hbij : (noCommon S (M / q)).card
      = ((noCommon S M).filter (fun p => q ∣ p.1 ∧ q ∣ p.2)).card := by
    refine Finset.card_bij (fun p _ => (q * p.1, q * p.2)) ?_ ?_ ?_
    · intro p hp
      simp only [noCommon, Finset.mem_filter, Finset.mem_product, Finset.mem_Icc] at hp ⊢
      obtain ⟨⟨⟨h1, h2⟩, h3, h4⟩, h5⟩ := hp
      have h2a : p.1 * q ≤ M := (Nat.le_div_iff_mul_le hq).mp h2
      have h4a : p.2 * q ≤ M := (Nat.le_div_iff_mul_le hq).mp h4
      refine ⟨⟨⟨⟨Nat.mul_pos hq h1, by rw [Nat.mul_comm]; exact h2a⟩,
        Nat.mul_pos hq h3, by rw [Nat.mul_comm]; exact h4a⟩, ?_⟩,
        Nat.dvd_mul_right q p.1, Nat.dvd_mul_right q p.2⟩
      intro r hr hdiv
      exact h5 r hr ⟨(hS r hr).dvd_of_dvd_mul_left hdiv.1, (hS r hr).dvd_of_dvd_mul_left hdiv.2⟩
    · intro p _ p1 _ hpp
      simp only [Prod.mk.injEq] at hpp
      exact Prod.ext (Nat.eq_of_mul_eq_mul_left hq hpp.1) (Nat.eq_of_mul_eq_mul_left hq hpp.2)
    · intro p hp
      simp only [noCommon, Finset.mem_filter, Finset.mem_product, Finset.mem_Icc] at hp
      obtain ⟨⟨⟨⟨h1, h2⟩, h3, h4⟩, h5⟩, ⟨x, hx⟩, ⟨y, hy⟩⟩ := hp
      refine ⟨(x, y), ?_, ?_⟩
      · simp only [noCommon, Finset.mem_filter, Finset.mem_product, Finset.mem_Icc]
        have hx0 : 1 ≤ x := by
          rcases Nat.eq_zero_or_pos x with h0 | h0
          · rw [h0, Nat.mul_zero] at hx
            omega
          · exact h0
        have hy0 : 1 ≤ y := by
          rcases Nat.eq_zero_or_pos y with h0 | h0
          · rw [h0, Nat.mul_zero] at hy
            omega
          · exact h0
        refine ⟨⟨⟨hx0, (Nat.le_div_iff_mul_le hq).mpr (by rw [Nat.mul_comm, ← hx]; exact h2)⟩,
          hy0, (Nat.le_div_iff_mul_le hq).mpr (by rw [Nat.mul_comm, ← hy]; exact h4)⟩, ?_⟩
        intro r hr hdiv
        refine h5 r hr ⟨?_, ?_⟩
        · rw [hx]
          exact Dvd.dvd.mul_left hdiv.1 q
        · rw [hy]
          exact Dvd.dvd.mul_left hdiv.2 q
      · exact Prod.ext hx.symm hy.symm
  rw [hcons, hbij]
  omega

/-- The sieve formula counts the pairs without a common divisor in a list of
pairwise coprime positive numbers. -/
theorem noCommon_card (S : List Nat) : (∀ q ∈ S, 0 < q) → S.Pairwise Nat.Coprime →
    ∀ M : Nat, ((noCommon S M).card : Int) = sieveCount S M := by
  induction S with
  | nil =>
    intro _ _ M
    simp [noCommon, sieveCount]
  | cons q S ih =>
    intro hpos hpw M
    rw [List.pairwise_cons] at hpw
    have hS : ∀ r ∈ S, Nat.Coprime r q := fun r hr => (hpw.1 r hr).symm
    have hpos1 : ∀ r ∈ S, 0 < r := fun r hr => hpos r (List.mem_cons_of_mem q hr)
    rw [noCommon_cons_card q S M (hpos q (List.mem_cons_self q S)) hS, sieveCount,
      ih hpos1 hpw.2 M, ih hpos1 hpw.2 (M / q)]

/-- A coprime pair has no common divisor above `1`. -/
theorem coprimeCount_le_noCommon (S : List Nat) (hS : ∀ q ∈ S, 2 ≤ q) (M : Nat) :
    coprimeCount M ≤ (noCommon S M).card := by
  unfold coprimeCount noCommon
  refine Finset.card_le_card ?_
  intro p hp
  simp only [Finset.mem_filter] at hp ⊢
  refine ⟨hp.1, ?_⟩
  intro q hq hdiv
  have h1 : q ∣ Nat.gcd p.1 p.2 := Nat.dvd_gcd hdiv.1 hdiv.2
  rw [hp.2] at h1
  have h2 := Nat.le_of_dvd Nat.one_pos h1
  have h3 := hS q hq
  omega

theorem tailSum_eq_sum (M : Nat) : ∀ n : Nat,
    (∑ d in (Finset.range (n + 1)).filter (fun d => tailDivisor d = true), (M / d) ^ 2)
      = tailSum M n := by
  intro n
  induction n with
  | zero =>
    rw [Finset.sum_filter, Finset.sum_range_succ, Finset.sum_range_zero]
    rfl
  | succ n ih =>
    rw [Finset.sum_filter, Finset.sum_range_succ, ← Finset.sum_filter, ih, tailSum]

theorem multiples_card (M d : Nat) :
    ((Finset.Icc 1 M ×ˢ Finset.Icc 1 M).filter (fun p => d ∣ p.1 ∧ d ∣ p.2)).card
      = (M / d) ^ 2 := by
  have h1 : ((Finset.Icc 1 M).filter (fun x => d ∣ x)).card = M / d := by
    have h := Nat.Ioc_filter_dvd_card_eq_div M d
    rw [← Nat.Icc_succ_left] at h
    exact h
  have h2 : (Finset.Icc 1 M ×ˢ Finset.Icc 1 M).filter (fun p => d ∣ p.1 ∧ d ∣ p.2)
      = (Finset.Icc 1 M).filter (fun x => d ∣ x) ×ˢ (Finset.Icc 1 M).filter (fun x => d ∣ x) := by
    ext p
    simp only [Finset.mem_filter, Finset.mem_product]
    tauto
  rw [h2, Finset.card_product, h1, pow_two]

/-- A prime that is none of `2, 3, 5, 7` is a `tailDivisor`. -/
theorem tailDivisor_of_prime (P : Nat) (hP : P.Prime) (h2 : P ≠ 2) (h3 : P ≠ 3)
    (h5 : P ≠ 5) (h7 : P ≠ 7) : tailDivisor P = true := by
  have hm2 : P % 2 ≠ 0 := by
    intro h
    exact h2 ((Nat.prime_dvd_prime_iff_eq Nat.prime_two hP).mp (Nat.dvd_of_mod_eq_zero h)).symm
  have hm3 : P % 3 ≠ 0 := by
    intro h
    exact h3 ((Nat.prime_dvd_prime_iff_eq Nat.prime_three hP).mp (Nat.dvd_of_mod_eq_zero h)).symm
  have hge : 11 ≤ P := by
    by_contra hlt
    have hlt1 : P < 11 := by omega
    have h2le := hP.two_le
    interval_cases P <;> omega
  unfold tailDivisor
  simp only [Bool.and_eq_true, decide_eq_true_eq, bne_iff_ne, ne_eq]
  exact ⟨⟨hge, hm2⟩, hm3⟩

/-- A pair without a common divisor among `2, 3, 5, 7` is coprime or has a common
`tailDivisor`, which bounds the sieve count from above. -/
theorem noCommon_le_coprimeCount_add (M : Nat) :
    (noCommon [2, 3, 5, 7] M).card ≤ coprimeCount M + tailSum M M := by
  set s := Finset.Icc 1 M ×ˢ Finset.Icc 1 M with hs
  set T := (Finset.range (M + 1)).filter (fun d => tailDivisor d = true) with hT
  have hsub : noCommon [2, 3, 5, 7] M
      ⊆ s.filter (fun p => Nat.gcd p.1 p.2 = 1)
        ∪ T.biUnion (fun d => s.filter (fun p => d ∣ p.1 ∧ d ∣ p.2)) := by
    intro p hp
    simp only [noCommon, Finset.mem_filter] at hp
    obtain ⟨hmem, hno⟩ := hp
    rw [Finset.mem_union]
    by_cases hg : Nat.gcd p.1 p.2 = 1
    · exact Or.inl (Finset.mem_filter.mpr ⟨hmem, hg⟩)
    · right
      have hP := Nat.minFac_prime hg
      have hd := Nat.minFac_dvd (Nat.gcd p.1 p.2)
      have hd1 : Nat.minFac (Nat.gcd p.1 p.2) ∣ p.1 := hd.trans (Nat.gcd_dvd_left _ _)
      have hd2 : Nat.minFac (Nat.gcd p.1 p.2) ∣ p.2 := hd.trans (Nat.gcd_dvd_right _ _)
      have hne : ∀ q ∈ [2, 3, 5, 7], Nat.minFac (Nat.gcd p.1 p.2) ≠ q := by
        intro q hq heq
        rw [heq] at hd1 hd2
        exact hno q hq ⟨hd1, hd2⟩
      have htail := tailDivisor_of_prime _ hP (hne 2 (by simp)) (hne 3 (by simp))
        (hne 5 (by simp)) (hne 7 (by simp))
      have hmem1 := hmem
      simp only [hs, Finset.mem_product, Finset.mem_Icc] at hmem1
      have hle : Nat.minFac (Nat.gcd p.1 p.2) ≤ p.1 := Nat.le_of_dvd (by omega) hd1
      rw [Finset.mem_biUnion]
      refine ⟨Nat.minFac (Nat.gcd p.1 p.2), ?_, Finset.mem_filter.mpr ⟨hmem, hd1, hd2⟩⟩
      rw [hT, Finset.mem_filter, Finset.mem_range]
      exact ⟨by omega, htail⟩
  have h1 := Finset.card_le_card hsub
  have h2 := Finset.card_union_le (s.filter (fun p => Nat.gcd p.1 p.2 = 1))
    (T.biUnion (fun d => s.filter (fun p => d ∣ p.1 ∧ d ∣ p.2)))
  have h3 : (T.biUnion (fun d => s.filter (fun p => d ∣ p.1 ∧ d ∣ p.2))).card
      ≤ ∑ d in T, (s.filter (fun p => d ∣ p.1 ∧ d ∣ p.2)).card := Finset.card_biUnion_le
  have h4 : (∑ d in T, (s.filter (fun p => d ∣ p.1 ∧ d ∣ p.2)).card) = tailSum M M := by
    rw [← tailSum_eq_sum M M]
    exact Finset.sum_congr rfl (fun d _ => multiples_card M d)
  have h5 : (s.filter (fun p => Nat.gcd p.1 p.2 = 1)).card = coprimeCount M := rfl
  omega

/-- The count for `N = 10000` lies between `59097276` and `62694123`. -/
theorem coprimeCount_bounds : 59097276 ≤ coprimeCount 10000 ∧ coprimeCount 10000 ≤ 62694123 := by
  have hsieve : sieveCount [2, 3, 5, 7] 10000 = 62694123 := by decide!
  have htail : tailSum 10000 10000 = 3596847 := by decide!
  have hcard := noCommon_card [2, 3, 5, 7] (by decide) (by decide) 10000
  have hup := coprimeCount_le_noCommon [2, 3, 5, 7] (by decide) 10000
  have hlo := noCommon_le_coprimeCount_add 10000
  rw [hsieve] at hcard
  rw [htail] at hlo
  omega

/-! ## The estimate of the reference run -/

/-- C12: for `N = 10000` (any fuel above `N`, unbounded or 32-bit integers) the
counter `cnt` of `calcPi` gives `|sqrt(6 / (cnt / 10000^2)) - π| < 0.05`, and
the estimate lies between `3.0` and `3.3`.  The quotients and the square root
are exact reals. -/
theorem calcPi_estimate_near_pi (fuel : Nat) (hf : 10000 < fuel) :
    ∃ (cnt : Int) (q : ℚ), calcPiCnt IntModel.exact fuel 10000 = some cnt ∧
      calcPiCnt IntModel.wrap32 fuel 10000 = some cnt ∧
      calcPiRadicand IntModel.exact fuel 10000 = some q ∧
      q = 6 / ((cnt : ℚ) / 10000 ^ 2) ∧
      |Real.sqrt (q : ℝ) - Real.pi| < 0.05 ∧
      3.0 < Real.sqrt (q : ℝ) ∧ Real.sqrt (q : ℝ) < 3.3 := by
  have hfuel : (10000 : Int) < fuel := by exact_mod_cast hf
  have he := calcPiScan_exact 10000 (by decide) fuel hfuel
  have hw := calcPiScan_wrap32 10000 (by decide) (by decide) fuel hfuel
  have hfr := calcPiFrac_of_scan IntModel.exact fuel 10000 _ 100000000 _ he (by decide)
  have hcard : (coprimePairs 10000).card = coprimeCount 10000 := coprimePairs_card_nat 10000
  obtain ⟨hlo, hhi⟩ := coprimeCount_bounds
  rw [← hcard] at hlo hhi
  have hlo1 : (59097276 : ℝ) ≤ ((coprimePairs 10000).card : ℝ) := by exact_mod_cast hlo
  have hhi1 : ((coprimePairs 10000).card : ℝ) ≤ 62694123 := by exact_mod_cast hhi
  have hq : (((6 / ((((coprimePairs 10000).card : Int) : ℚ) / 10000 ^ 2) : ℚ)) : ℝ)
      = 6 / (((coprimePairs 10000).card : ℝ) / 100000000) := by
    push_cast
    norm_num
  have hpos : (0 : ℝ) < ((coprimePairs 10000).card : ℝ) / 100000000 := by
    apply div_pos
    · linarith
    · norm_num
  have h1 : (3.0935 : ℝ) ^ 2 < 6 / (((coprimePairs 10000).card : ℝ) / 100000000) := by
    rw [lt_div_iff₀ hpos]
    norm_num
    linarith
  have h2 : 6 / (((coprimePairs 10000).card : ℝ) / 100000000) < (3.187 : ℝ) ^ 2 := by
    rw [div_lt_iff₀ hpos]
    norm_num
    linarith
  have h3 : (3.0935 : ℝ) < Real.sqrt (6 / (((coprimePairs 10000).card : ℝ) / 100000000)) := by
    rw [Real.lt_sqrt (by norm_num)]
    exact h1
  have h4 : Real.sqrt (6 / (((coprimePairs 10000).card : ℝ) / 100000000)) < (3.187 : ℝ) := by
    rw [Real.sqrt_lt' (by norm_num)]
    exact h2
  have hpi1 := Real.pi_gt_d4
  have hpi2 := Real.pi_lt_d4
  refine ⟨_, _, calcPiCnt_of_scan _ _ _ _ _ he, calcPiCnt_of_scan _ _ _ _ _ hw,
    calcPiRadicand_of_frac _ _ _ _ _ hfr, ?_, ?_, ?_, ?_⟩
  · norm_num
  · rw [show (((100000000 : Int) : ℚ)) = 10000 ^ 2 by norm_num, hq, abs_lt]
    constructor
    · linarith
    · linarith
  · rw [show (((100000000 : Int) : ℚ)) = 10000 ^ 2 by norm_num, hq]
    linarith
  · rw [show (((100000000 : Int) : ℚ)) = 10000 ^ 2 by norm_num, hq]
    linarith

theorem calcPi_estimate_near_pi_witness :
    ∃ (cnt : Int) (q : ℚ), calcPiCnt IntModel.exact 10001 10000 = some cnt ∧
      calcPiCnt IntModel.wrap32 10001 10000 = some cnt ∧
      calcPiRadicand IntModel.exact 10001 10000 = some q ∧
      q = 6 / ((cnt : ℚ) / 10000 ^ 2) ∧
      |Real.sqrt (q : ℝ) - Real.pi| < 0.05 ∧
      3.0 < Real.sqrt (q : ℝ) ∧ Real.sqrt (q : ℝ) < 3.3 :=
  calcPi_estimate_near_pi 10001 (by decide)

/-! ## The program -/

/-- At `N = 10000` the numerator and denominator of line 29 are the same over
unbounded integers and with 32-bit wrap-around. -/
theorem calcPiFrac_reference (fuel : Nat) (hf : 10000 < fuel) :
    ∃ cnt : Int, calcPiFrac IntModel.exact fuel 10000 = some (cnt, 100000000) ∧
      calcPiFrac IntModel.wrap32 fuel 10000 = some (cnt, 100000000) := by
  have hfuel : (10000 : Int) < fuel := by exact_mod_cast hf
  have he := calcPiScan_exact 10000 (by decide) fuel hfuel
  have hw := calcPiScan_wrap32 10000 (by decide) (by decide) fuel hfuel
  exact ⟨_, calcPiFrac_of_scan _ _ _ _ _ _ he (by decide),
    calcPiFrac_of_scan _ _ _ _ _ _ hw (by decide)⟩


theorem lineEnds_append (s t : String) : lineEnds (s ++ t) = lineEnds s + lineEnds t := by
  simp [lineEnds, String.toList, String.data_append, List.count_append]

theorem main_of_frac {D : Type} (env : MainEnv D) (m : IntModel) (fuel : Nat) (cnt d : Int)
    (h : calcPiFrac m fuel 10000 = some (cnt, d)) :
    main env m fuel
      = some ([Event.clock, Event.callCalcPi 10000, Event.clock,
          Event.printf ("calcPi: " ++ env.fmtF (env.seconds (env.clockEnd - env.clockStart))
            ++ " seconds\n"),
          Event.printf "N: 10000\n",
          Event.printf ("pi: " ++ env.fmtF (env.estimate cnt d) ++ "\n")], 0) := by
  have hN : "N: " ++ fmtD 10000 ++ "\n" = "N: 10000\n" := by decide
  simp only [main, calcPi, h, Option.map_some', hN]

/-- C13: `main` calls `calcPi` once, with `N = 10000`; the call returns (with
any fuel above `N`, unbounded or 32-bit integers), and `main` then makes three
`printf` calls, each writing one line: `calcPi: <seconds> seconds`, then
`N: 10000`, then `pi: <estimate>`, and returns `0`.  Whenever `main` returns,
it returns `0`.  The clock readings, the `double` values and the text of a
`%f` argument (which has no line end) are taken as given. -/
theorem main_output {D : Type} (env : MainEnv D) (hfmt : ∀ x : D, lineEnds (env.fmtF x) = 0)
    (fuel : Nat) (hf : 10000 < fuel) :
    (∃ (cnt : Int) (evs : List Event),
      calcPiFrac IntModel.wrap32 fuel 10000 = some (cnt, 100000000) ∧
      main env IntModel.wrap32 fuel = some (evs, 0) ∧
      main env IntModel.exact fuel = some (evs, 0) ∧
      calcPiCalls evs = [10000] ∧
      stdoutOf evs
        = ["calcPi: " ++ env.fmtF (env.seconds (env.clockEnd - env.clockStart)) ++ " seconds\n",
            "N: 10000\n",
            "pi: " ++ env.fmtF (env.estimate cnt 100000000) ++ "\n"] ∧
      (∀ t ∈ stdoutOf evs, lineEnds t = 1)) ∧
    (∀ (m : IntModel) (fuel1 : Nat) (r : List Event × Int),
      main env m fuel1 = some r → r.2 = 0) := by
  constructor
  · obtain ⟨cnt, hfe, hfw⟩ := calcPiFrac_reference fuel hf
    have hw := main_of_frac env IntModel.wrap32 fuel cnt 100000000 hfw
    have he := main_of_frac env IntModel.exact fuel cnt 100000000 hfe
    refine ⟨cnt, _, hfw, hw, he, rfl, rfl, ?_⟩
    intro t ht
    simp only [stdoutOf, List.mem_cons, List.mem_singleton, List.not_mem_nil, or_false] at ht
    have h1 : lineEnds "calcPi: " = 0 := by decide
    have h2 : lineEnds " seconds\n" = 1 := by decide
    have h3 : lineEnds "N: 10000\n" = 1 := by decide
    have h4 : lineEnds "pi: " = 0 := by decide
    have h5 : lineEnds "\n" = 1 := by decide
    rcases ht with rfl | rfl | rfl
    · rw [lineEnds_append, lineEnds_append, h1, h2, hfmt]
    · exact h3
    · rw [lineEnds_append, lineEnds_append, h4, h5, hfmt]
  · intro m fuel1 r hr
    unfold main at hr
    cases hpi : calcPi env m fuel1 10000 with
    | none => simp [hpi] at hr
    | some v =>
      simp only [hpi, Option.some.injEq] at hr
      rw [← hr]

theorem main_output_witness :
    ∃ evs : List Event,
      main (⟨0, 5, fun t => t, fun c _ => c, fun _ => "0"⟩ : MainEnv Int) IntModel.wrap32 10001
        = some (evs, 0) ∧
      calcPiCalls evs = [10000] ∧ (stdoutOf evs).length = 3 := by
  obtain ⟨⟨cnt, evs, _, h1, _, h2, h3, _⟩, _⟩ :=
    main_output (⟨0, 5, fun t => t, fun c _ => c, fun _ => "0"⟩ : MainEnv Int)
      (fun _ => (by decide : lineEnds "0" = 0)) 10001 (by decide)
  exact ⟨evs, h1, h2, by rw [h3]; rfl⟩

/-! ## The 32-bit counter -/

theorem wrapInt_succ (x : Int) : wrapInt (wrapInt x + 1) = wrapInt (x + 1) := by
  unfold wrapInt
  omega

theorem wrapInt_range (x : Int) : INT_MIN ≤ wrapInt x ∧ wrapInt x ≤ INT_MAX := by
  unfold wrapInt INT_MIN INT_MAX
  omega

/-- The inner loop with 32-bit wrap-around follows the inner loop over unbounded
integers, its counter being the unbounded counter reduced to 32 bits, as long
as the loop variable cannot overflow (`N < INT_MAX`). -/
theorem calcPiInner_wrap32_sim (N a : Int) (hN : N + 1 ≤ INT_MAX) :
    ∀ (fuel : Nat) (b cnt : Int) (calls : Nat) (r : Int × Nat), 1 ≤ b →
      calcPiInner IntModel.exact fuel N a b (cnt, calls) = some r →
      calcPiInner IntModel.wrap32 fuel N a b (wrapInt cnt, calls) = some (wrapInt r.1, r.2) := by
  intro fuel
  induction fuel with
  | zero =>
    intro b cnt calls r _ h
    simp [calcPiInner] at h
  | succ fuel ih =>
    intro b cnt calls r hb h
    rw [calcPiInner] at h ⊢
    by_cases hle : b ≤ N
    · rw [if_pos hle] at h ⊢
      have hvar : wrapInt (b + 1) = b + 1 :=
        wrapInt_of_range _ (by unfold INT_MIN; omega) (by omega)
      cases hg : mygcd a b with
      | none => simp [hg] at h
      | some g =>
        simp only [hg, IntModel.exact, IntModel.wrap32] at h ⊢
        by_cases hg1 : g = 1
        · simp only [hg1, if_true] at h ⊢
          rw [hvar, wrapInt_succ]
          exact ih (b + 1) (cnt + 1) (calls + 1) r (by omega) h
        · simp only [hg1, if_false] at h ⊢
          rw [hvar]
          exact ih (b + 1) cnt (calls + 1) r (by omega) h
    · rw [if_neg hle] at h ⊢
      rw [← Option.some.inj h]

/-- The outer loop with 32-bit wrap-around follows the outer loop over unbounded
integers in the same way. -/
theorem calcPiOuter_wrap32_sim (N : Int) (hN : N + 1 ≤ INT_MAX) (fuelIn : Nat) :
    ∀ (fuel : Nat) (a cnt : Int) (calls : Nat) (r : Int × Nat), 1 ≤ a →
      calcPiOuter IntModel.exact fuelIn fuel N a (cnt, calls) = some r →
      calcPiOuter IntModel.wrap32 fuelIn fuel N a (wrapInt cnt, calls)
        = some (wrapInt r.1, r.2) := by
  intro fuel
  induction fuel with
  | zero =>
    intro a cnt calls r _ h
    simp [calcPiOuter] at h
  | succ fuel ih =>
    intro a cnt calls r ha h
    rw [calcPiOuter] at h ⊢
    by_cases hle : a ≤ N
    · rw [if_pos hle] at h ⊢
      have hvar : wrapInt (a + 1) = a + 1 :=
        wrapInt_of_range _ (by unfold INT_MIN; omega) (by omega)
      cases hin : calcPiInner IntModel.exact fuelIn N a 1 (cnt, calls) with
      | none => simp [hin] at h
      | some st1 =>
        rw [calcPiInner_wrap32_sim N a hN fuelIn 1 cnt calls st1 (le_refl 1) hin]
        rw [hin] at h
        simp only [IntModel.exact, IntModel.wrap32] at h ⊢
        rw [hvar]
        exact ih (a + 1) st1.1 st1.2 r (by omega) h
    · rw [if_neg hle] at h ⊢
      rw [← Option.some.inj h]

/-- For every `0 ≤ N < INT_MAX` the 32-bit scan finishes with any fuel above
`N`, and its counter is the number of coprime pairs reduced to 32 bits. -/
theorem calcPiScan_wrap32_mod (N : Int) (hN : 0 ≤ N) (hmax : N < INT_MAX)
    (fuel : Nat) (hf : N < fuel) :
    calcPiScan IntModel.wrap32 fuel N
      = some (wrapInt ((coprimePairs N).card : Int), N.toNat * N.toNat) := by
  have he := calcPiScan_exact N hN fuel hf
  have h0 : wrapInt 0 = 0 := by decide
  have hs := calcPiOuter_wrap32_sim N (by omega) fuel fuel 1 0 0 _ (le_refl 1) he
  rw [h0] at hs
  exact hs

/-- The 32-bit scan counts the coprime pairs whenever their number fits in an
`int`. -/
theorem calcPiScan_wrap32_of_fits (N : Int) (hN : 0 ≤ N) (hmax : N < INT_MAX)
    (hfit : ((coprimePairs N).card : Int) ≤ INT_MAX) (fuel : Nat) (hf : N < fuel) :
    calcPiScan IntModel.wrap32 fuel N
      = some (((coprimePairs N).card : Int), N.toNat * N.toNat) := by
  rw [calcPiScan_wrap32_mod N hN hmax fuel hf,
    wrapInt_of_range _ (by unfold INT_MIN; omega) hfit]

theorem coprimePairs_card_fits (N : Int) (hN : 0 ≤ N) (hNN : N * N ≤ INT_MAX) :
    ((coprimePairs N).card : Int) ≤ INT_MAX :=
  le_trans (coprimePairs_card_le N hN) hNN

/-- Over unbounded integers the counter never decreases in the inner loop. -/
theorem calcPiInner_exact_mono (N a : Int) :
    ∀ (fuel : Nat) (b cnt : Int) (calls : Nat) (r : Int × Nat),
      calcPiInner IntModel.exact fuel N a b (cnt, calls) = some r → cnt ≤ r.1 := by
  intro fuel
  induction fuel with
  | zero =>
    intro b cnt calls r h
    simp [calcPiInner] at h
  | succ fuel ih =>
    intro b cnt calls r h
    rw [calcPiInner] at h
    by_cases hle : b ≤ N
    · rw [if_pos hle] at h
      cases hg : mygcd a b with
      | none => simp [hg] at h
      | some g =>
        simp only [hg, IntModel.exact] at h
        by_cases hg1 : g = 1
        · simp only [hg1, if_true] at h
          have := ih (b + 1) (cnt + 1) (calls + 1) r h
          omega
        · simp only [hg1, if_false] at h
          exact ih (b + 1) cnt (calls + 1) r h
    · rw [if_neg hle] at h
      rw [← Option.some.inj h]

/-- Over unbounded integers the counter never decreases in the outer loop. -/
theorem calcPiOuter_exact_mono (N : Int) (fuelIn : Nat) :
    ∀ (fuel : Nat) (a cnt : Int) (calls : Nat) (r : Int × Nat),
      calcPiOuter IntModel.exact fuelIn fuel N a (cnt, calls) = some r → cnt ≤ r.1 := by
  intro fuel
  induction fuel with
  | zero =>
    intro a cnt calls r h
    simp [calcPiOuter] at h
  | succ fuel ih =>
    intro a cnt calls r h
    rw [calcPiOuter] at h
    by_cases hle : a ≤ N
    · rw [if_pos hle] at h
      cases hin : calcPiInner IntModel.exact fuelIn N a 1 (cnt, calls) with
      | none => simp [hin] at h
      | some st1 =>
        have h1 := calcPiInner_exact_mono N a fuelIn 1 cnt calls st1 hin
        rw [hin] at h
        simp only [IntModel.exact] at h
        have h2 := ih (a + 1) st1.1 st1.2 r h
        omega
    · rw [if_neg hle] at h
      rw [← Option.some.inj h]

/-- The inner loop with overflow checked gives the result of the inner loop over
unbounded integers when that result fits in an `int`. -/
theorem calcPiInner_checked32_sim (N a : Int) (hN : N + 1 ≤ INT_MAX) :
    ∀ (fuel : Nat) (b cnt : Int) (calls : Nat) (r : Int × Nat), 1 ≤ b → 0 ≤ cnt →
      r.1 ≤ INT_MAX →
      calcPiInner IntModel.exact fuel N a b (cnt, calls) = some r →
      calcPiInner IntModel.checked32 fuel N a b (cnt, calls) = some r := by
  intro fuel
  induction fuel with
  | zero =>
    intro b cnt calls r _ _ _ h
    simp [calcPiInner] at h
  | succ fuel ih =>
    intro b cnt calls r hb hcnt hr h
    rw [calcPiInner] at h ⊢
    by_cases hle : b ≤ N
    · rw [if_pos hle] at h ⊢
      have hvar : storeWithin INT_MIN INT_MAX (b + 1) = some (b + 1) :=
        storeWithin_of_range _ _ _ (by unfold INT_MIN; omega) (by omega)
      cases hg : mygcd a b with
      | none => simp [hg] at h
      | some g =>
        simp only [hg, IntModel.exact, IntModel.checked32] at h ⊢
        by_cases hg1 : g = 1
        · simp only [hg1, if_true] at h ⊢
          have hm := calcPiInner_exact_mono N a fuel (b + 1) (cnt + 1) (calls + 1) r h
          have hacc : storeWithin INT_MIN INT_MAX (cnt + 1) = some (cnt + 1) :=
            storeWithin_of_range _ _ _ (by unfold INT_MIN; omega) (by omega)
          rw [hacc, hvar]
          exact ih (b + 1) (cnt + 1) (calls + 1) r (by omega) (by omega) hr h
        · simp only [hg1, if_false] at h ⊢
          rw [hvar]
          exact ih (b + 1) cnt (calls + 1) r (by omega) hcnt hr h
    · rw [if_neg hle] at h ⊢
      exact h

/-- The outer loop with overflow checked gives the result of the outer loop over
unbounded integers when that result fits in an `int`. -/
theorem calcPiOuter_checked32_sim (N : Int) (hN : N + 1 ≤ INT_MAX) (fuelIn : Nat) :
    ∀ (fuel : Nat) (a cnt : Int) (calls : Nat) (r : Int × Nat), 1 ≤ a → 0 ≤ cnt →
      r.1 ≤ INT_MAX →
      calcPiOuter IntModel.exact fuelIn fuel N a (cnt, calls) = some r →
      calcPiOuter IntModel.checked32 fuelIn fuel N a (cnt, calls) = some r := by
  intro fuel
  induction fuel with
  | zero =>
    intro a cnt calls r _ _ _ h
    simp [calcPiOuter] at h
  | succ fuel ih =>
    intro a cnt calls r ha hcnt hr h
    rw [calcPiOuter] at h ⊢
    by_cases hle : a ≤ N
    · rw [if_pos hle] at h ⊢
      have hvar : storeWithin INT_MIN INT_MAX (a + 1) = some (a + 1) :=
        storeWithin_of_range _ _ _ (by unfold INT_MIN; omega) (by omega)
      cases hin : calcPiInner IntModel.exact fuelIn N a 1 (cnt, calls) with
      | none => simp [hin] at h
      | some st1 =>
        have h1 := calcPiInner_exact_mono N a fuelIn 1 cnt calls st1 hin
        rw [hin] at h
        simp only [IntModel.exact] at h
        have h2 := calcPiOuter_exact_mono N fuelIn fuel (a + 1) st1.1 st1.2 r h
        rw [calcPiInner_checked32_sim N a hN fuelIn 1 cnt calls st1 (le_refl 1) hcnt
          (by omega) hin]
        simp only [IntModel.checked32]
        rw [hvar]
        exact ih (a + 1) st1.1 st1.2 r (by omega) (by omega) hr h
    · rw [if_neg hle] at h ⊢
      exact h

/-- With overflow checked the scan counts the coprime pairs, without any
overflow, whenever their number fits in an `int`. -/
theorem calcPiScan_checked32_of_fits (N : Int) (hN : 0 ≤ N) (hmax : N < INT_MAX)
    (hfit : ((coprimePairs N).card : Int) ≤ INT_MAX) (fuel : Nat) (hf : N < fuel) :
    calcPiScan IntModel.checked32 fuel N
      = some (((coprimePairs N).card : Int), N.toNat * N.toNat) :=
  calcPiOuter_checked32_sim N (by omega) fuel fuel 1 0 0 _ (le_refl 1) (le_refl 0) hfit
    (calcPiScan_exact N hN fuel hf)

/-! ## The count at `N = 65536` -/

theorem tailSum_le_add (M n0 : Nat) : ∀ k : Nat,
    tailSum M (n0 + k) ≤ tailSum M n0 + k * (M / (n0 + 1)) ^ 2 := by
  intro k
  induction k with
  | zero => simp
  | succ k ih =>
    have hdiv : M / (n0 + k + 1) ≤ M / (n0 + 1) := Nat.div_le_div_left (by omega) (by omega)
    have hsq : (M / (n0 + k + 1)) ^ 2 ≤ (M / (n0 + 1)) ^ 2 := Nat.pow_le_pow_left hdiv 2
    have hstep : tailSum M (n0 + (k + 1))
        ≤ tailSum M (n0 + k) + (M / (n0 + k + 1)) ^ 2 := by
      rw [← Nat.add_assoc, tailSum]
      split_ifs
      · exact le_refl _
      · omega
    have hmul : (k + 1) * (M / (n0 + 1)) ^ 2 = k * (M / (n0 + 1)) ^ 2 + (M / (n0 + 1)) ^ 2 := by
      ring
    omega

/-- For `N = 65536` the number of coprime pairs no longer fits in an `int`. -/
theorem coprimeCount_65536 :
    2147483648 ≤ coprimeCount 65536 ∧ coprimeCount 65536 < 4294967296 := by
  have hsieve : sieveCount [2, 3, 5, 7] 65536 = 2692679969 := by decide!
  have htail0 : tailSum 65536 5000 = 155127107 := by decide!
  have htail := tailSum_le_add 65536 5000 60536
  have hcard := noCommon_card [2, 3, 5, 7] (by decide) (by decide) 65536
  have hup := coprimeCount_le_noCommon [2, 3, 5, 7] (by decide) 65536
  have hlo := noCommon_le_coprimeCount_add 65536
  rw [hsieve] at hcard
  rw [htail0] at htail
  norm_num at htail
  omega

/-- The 32-bit counter of `calcPi(65536)` is the number of coprime pairs less
`2^32`, a negative number. -/
theorem calcPiScan_65536 (fuel : Nat) (hf : 65536 < fuel) :
    calcPiScan IntModel.wrap32 fuel 65536
        = some (((coprimePairs 65536).card : Int) - 4294967296, 4294967296) ∧
      ((coprimePairs 65536).card : Int) - 4294967296 < 0 ∧
      INT_MAX < ((coprimePairs 65536).card : Int) := by
  have hcard : (coprimePairs 65536).card = coprimeCount 65536 := coprimePairs_card_nat 65536
  obtain ⟨hlo, hhi⟩ := coprimeCount_65536
  rw [← hcard] at hlo hhi
  have hlo1 : (2147483648 : Int) ≤ ((coprimePairs 65536).card : Int) := by exact_mod_cast hlo
  have hhi1 : ((coprimePairs 65536).card : Int) < 4294967296 := by exact_mod_cast hhi
  have hwrap : wrapInt ((coprimePairs 65536).card : Int)
      = ((coprimePairs 65536).card : Int) - 4294967296 := by
    unfold wrapInt
    omega
  have hcalls : (65536 : Int).toNat * (65536 : Int).toNat = 4294967296 := by decide
  have hs := calcPiScan_wrap32_mod 65536 (by decide) (by decide) fuel (by exact_mod_cast hf)
  rw [hwrap, hcalls] at hs
  exact ⟨hs, by omega, by unfold INT_MAX; omega⟩

/-! ## The counter of `calcPi` as an `int` -/

/-- C2, amended: for every `int` `N` with `1 ≤ N < INT_MAX` for which the number
of ordered pairs `(a, b)`, `1 ≤ a ≤ N`, `1 ≤ b ≤ N`, with greatest common
divisor `1` is at most `INT_MAX` (as it is whenever `N * N ≤ INT_MAX`), the
double loop of `calcPi(N)` finishes (with any fuel above `N`) after `N * N`
calls of `mygcd` with that number in the counter, in 32-bit arithmetic with
wrap-around and with overflow checked alike. -/
theorem calcPi_counts_coprime_pairs (N : Int) (hN : 1 ≤ N) (hmax : N < INT_MAX)
    (fuel : Nat) (hf : N < fuel) :
    (((coprimePairs N).card : Int) ≤ INT_MAX →
      calcPiScan IntModel.wrap32 fuel N
        = some (((coprimePairs N).card : Int), N.toNat * N.toNat) ∧
      calcPiScan IntModel.checked32 fuel N
        = some (((coprimePairs N).card : Int), N.toNat * N.toNat) ∧
      calcPiCnt IntModel.wrap32 fuel N = some ((coprimePairs N).card : Int)) ∧
    (N * N ≤ INT_MAX → ((coprimePairs N).card : Int) ≤ INT_MAX) := by
  refine ⟨fun hfit => ?_, coprimePairs_card_fits N (by omega)⟩
  have hw := calcPiScan_wrap32_of_fits N (by omega) hmax hfit fuel hf
  exact ⟨hw, calcPiScan_checked32_of_fits N (by omega) hmax hfit fuel hf,
    calcPiCnt_of_scan _ _ _ _ _ hw⟩

theorem calcPi_counts_coprime_pairs_witness :
    calcPiScan IntModel.wrap32 10001 10000
        = some (((coprimePairs 10000).card : Int), (10000 : Int).toNat * (10000 : Int).toNat) ∧
      calcPiScan IntModel.checked32 10001 10000
        = some (((coprimePairs 10000).card : Int), (10000 : Int).toNat * (10000 : Int).toNat) ∧
      calcPiCnt IntModel.wrap32 10001 10000 = some ((coprimePairs 10000).card : Int) :=
  (calcPi_counts_coprime_pairs 10000 (by decide) (by decide) 10001 (by decide)).1
    ((calcPi_counts_coprime_pairs 10000 (by decide) (by decide) 10001 (by decide)).2 (by decide))

/-- C2 as stated fails at `N = 65536`: the 32-bit counter of `calcPi(65536)` is
negative when the double loop finishes, not the number of coprime pairs. -/
theorem calcPi_counts_coprime_pairs_fails :
    ∃ c : Int, calcPiCnt IntModel.wrap32 65537 65536 = some c ∧ c < 0 ∧
      c ≠ ((coprimePairs 65536).card : Int) := by
  obtain ⟨hs, hneg, _⟩ := calcPiScan_65536 65537 (by decide)
  exact ⟨_, calcPiCnt_of_scan _ _ _ _ _ hs, hneg, by omega⟩

/-- C4, amended: for every `int` `N` with `1 ≤ N < INT_MAX` for which the number
of coprime pairs is at most `INT_MAX`, the counter `cnt` of `calcPi(N)`
satisfies `0 < cnt ≤ N^2`; and whenever `N * N ≤ INT_MAX` the denominator is
`N^2`, the probability `cnt / N^2` is positive and at most `1`, and
`6 / probability` is the quotient by a nonzero number.  In 32-bit arithmetic. -/
theorem calcPi_counter_bounds (N : Int) (hN : 1 ≤ N) (hmax : N < INT_MAX)
    (fuel : Nat) (hf : N < fuel) :
    (((coprimePairs N).card : Int) ≤ INT_MAX →
      ∃ cnt : Int, calcPiCnt IntModel.wrap32 fuel N = some cnt ∧
        calcPiCnt IntModel.checked32 fuel N = some cnt ∧ 0 < cnt ∧ cnt ≤ N ^ 2) ∧
    (N * N ≤ INT_MAX →
      ∃ (cnt : Int) (prob : ℚ), calcPiFrac IntModel.wrap32 fuel N = some (cnt, N ^ 2) ∧
        calcPiFrac IntModel.checked32 fuel N = some (cnt, N ^ 2) ∧
        0 < cnt ∧ cnt ≤ N ^ 2 ∧
        calcPiProb IntModel.wrap32 fuel N = some prob ∧
        prob = (cnt : ℚ) / (N : ℚ) ^ 2 ∧ 0 < prob ∧ prob ≤ 1 ∧
        calcPiRadicand IntModel.wrap32 fuel N = some (6 / prob)) := by
  have hpos : (0 : Int) < ((coprimePairs N).card : Int) := by
    exact_mod_cast coprimePairs_card_pos N hN
  have hle : ((coprimePairs N).card : Int) ≤ N ^ 2 := by
    rw [pow_two]
    exact coprimePairs_card_le N (by omega)
  constructor
  · intro hfit
    exact ⟨_, calcPiCnt_of_scan _ _ _ _ _ (calcPiScan_wrap32_of_fits N (by omega) hmax hfit fuel hf),
      calcPiCnt_of_scan _ _ _ _ _ (calcPiScan_checked32_of_fits N (by omega) hmax hfit fuel hf),
      hpos, hle⟩
  · intro hNN
    have hfit := coprimePairs_card_fits N (by omega) hNN
    have hlo : INT_MIN ≤ N * N := by unfold INT_MIN; nlinarith
    have hdw : calcPiDenom IntModel.wrap32 N = some (N ^ 2) := by
      show some (wrapInt (N * N)) = some (N ^ 2)
      rw [wrapInt_of_range _ hlo hNN, pow_two]
    have hdc : calcPiDenom IntModel.checked32 N = some (N ^ 2) := by
      rw [pow_two]
      exact storeWithin_of_range _ _ _ hlo hNN
    have hfw := calcPiFrac_of_scan _ _ _ _ _ _
      (calcPiScan_wrap32_of_fits N (by omega) hmax hfit fuel hf) hdw
    have hfc := calcPiFrac_of_scan _ _ _ _ _ _
      (calcPiScan_checked32_of_fits N (by omega) hmax hfit fuel hf) hdc
    have hN2 : (0 : ℚ) < (N : ℚ) ^ 2 := by
      have : (0 : ℚ) < (N : ℚ) := by exact_mod_cast (show (0 : Int) < N by omega)
      positivity
    refine ⟨_, _, hfw, hfc, hpos, hle, ?_, rfl, ?_, ?_, ?_⟩
    · rw [calcPiProb_of_frac _ _ _ _ _ hfw]
      push_cast
      rfl
    · exact div_pos (by exact_mod_cast hpos) hN2
    · rw [div_le_one hN2]
      exact_mod_cast hle
    · rw [calcPiRadicand_of_frac _ _ _ _ _ hfw]
      push_cast
      rfl

theorem calcPi_counter_bounds_witness :
    (∃ cnt : Int, calcPiCnt IntModel.wrap32 10001 10000 = some cnt ∧
        calcPiCnt IntModel.checked32 10001 10000 = some cnt ∧ 0 < cnt ∧ cnt ≤ 10000 ^ 2) ∧
    (∃ (cnt : Int) (prob : ℚ), calcPiFrac IntModel.wrap32 10001 10000 = some (cnt, 10000 ^ 2) ∧
        calcPiFrac IntModel.checked32 10001 10000 = some (cnt, 10000 ^ 2) ∧
        0 < cnt ∧ cnt ≤ 10000 ^ 2 ∧
        calcPiProb IntModel.wrap32 10001 10000 = some prob ∧
        prob = (cnt : ℚ) / ((10000 : Int) : ℚ) ^ 2 ∧ 0 < prob ∧ prob ≤ 1 ∧
        calcPiRadicand IntModel.wrap32 10001 10000 = some (6 / prob)) :=
  ⟨(calcPi_counter_bounds 10000 (by decide) (by decide) 10001 (by decide)).1
      (coprimePairs_card_fits 10000 (by decide) (by decide)),
    (calcPi_counter_bounds 10000 (by decide) (by decide) 10001 (by decide)).2 (by decide)⟩

/-- C4 as stated fails at `N = 65536`: the 32-bit counter of `calcPi(65536)` is
negative and the denominator `N * N` is `0`. -/
theorem calcPi_counter_bounds_fails :
    ∃ c : Int, calcPiFrac IntModel.wrap32 65537 65536 = some (c, 0) ∧ c < 0 := by
  obtain ⟨hs, hneg, _⟩ := calcPiScan_65536 65537 (by decide)
  exact ⟨_, calcPiFrac_of_scan _ _ _ _ _ _ hs (by decide), hneg⟩

/-- C11, evaluated on the code: for `N = -65536` the double loop makes no
iteration in any integer model and the counter is `0`, but the `int` product
`N * N = 2^32` of line 29 overflows; with wrap-around the denominator is `0`,
so the division is `0 / 0` and not `0 / N^2`.  For `N = -46341` the wrapped
denominator is negative. -/
theorem calcPi_negative_denominator_overflow :
    (∀ (m : IntModel) (fuel : Nat), calcPiScan m (fuel + 1) (-65536) = some (0, 0)) ∧
    calcPiDenom IntModel.exact (-65536) = some 4294967296 ∧
    calcPiDenom IntModel.checked32 (-65536) = none ∧
    (∀ fuel : Nat, calcPiFrac IntModel.wrap32 (fuel + 1) (-65536) = some (0, 0)) ∧
    (∀ fuel : Nat, calcPiFrac IntModel.wrap32 (fuel + 1) (-46341) = some (0, -2147479015)) := by
  refine ⟨fun m fuel => calcPiScan_of_nonpos m _ (by decide) fuel, by decide, by decide,
    fun fuel => ?_, fun fuel => ?_⟩
  · exact calcPiFrac_of_scan _ _ _ _ _ _ (calcPiScan_of_nonpos _ _ (by decide) fuel) (by decide)
  · exact calcPiFrac_of_scan _ _ _ _ _ _ (calcPiScan_of_nonpos _ _ (by decide) fuel) (by decide)

/-- C14, amended: for every `int` `N` with `1 ≤ N < INT_MAX` for which
`2 * #{(a, b) : 1 ≤ a < b ≤ N, mygcd(a, b) = 1} + 1` is at most `INT_MAX` (as it
is whenever `N * N ≤ INT_MAX`), this number, which is odd and is the number of
coprime pairs, is the counter of the full double loop of `calcPi(N)`, in 32-bit
arithmetic with wrap-around and with overflow checked alike. -/
theorem calcPi_symmetry_shortcut (N : Int) (hN : 1 ≤ N) (hmax : N < INT_MAX)
    (fuel : Nat) (hf : N < fuel) :
    symmetricCount N = 2 * ((upperPairs N).card : Int) + 1 ∧
    symmetricCount N = ((coprimePairs N).card : Int) ∧
    symmetricCount N % 2 = 1 ∧
    (symmetricCount N ≤ INT_MAX →
      calcPiCnt IntModel.wrap32 fuel N = some (symmetricCount N) ∧
      calcPiCnt IntModel.checked32 fuel N = some (symmetricCount N)) ∧
    (N * N ≤ INT_MAX → symmetricCount N ≤ INT_MAX) := by
  have hc := coprimePairs_card_symmetric N hN
  refine ⟨rfl, hc.symm, ?_, ?_, ?_⟩
  · unfold symmetricCount
    omega
  · intro hfit
    rw [← hc] at hfit ⊢
    exact ⟨calcPiCnt_of_scan _ _ _ _ _ (calcPiScan_wrap32_of_fits N (by omega) hmax hfit fuel hf),
      calcPiCnt_of_scan _ _ _ _ _ (calcPiScan_checked32_of_fits N (by omega) hmax hfit fuel hf)⟩
  · intro hNN
    rw [← hc]
    exact coprimePairs_card_fits N (by omega) hNN

theorem calcPi_symmetry_shortcut_witness :
    symmetricCount 10000 % 2 = 1 ∧
      calcPiCnt IntModel.wrap32 10001 10000 = some (symmetricCount 10000) ∧
      calcPiCnt IntModel.checked32 10001 10000 = some (symmetricCount 10000) :=
  ⟨(calcPi_symmetry_shortcut 10000 (by decide) (by decide) 10001 (by decide)).2.2.1,
    (calcPi_symmetry_shortcut 10000 (by decide) (by decide) 10001 (by decide)).2.2.2.1
      ((calcPi_symmetry_shortcut 10000 (by decide) (by decide) 10001 (by decide)).2.2.2.2
        (by decide))⟩

/-- C14 as stated fails at `N = 65536`: the 32-bit counter of `calcPi(65536)` is
at most `INT_MAX`, below `2 * #{(a, b) : 1 ≤ a < b ≤ N, mygcd(a, b) = 1} + 1`. -/
theorem calcPi_symmetry_shortcut_fails :
    ∃ c : Int, calcPiCnt IntModel.wrap32 65537 65536 = some c ∧ c ≤ INT_MAX ∧
      INT_MAX < symmetricCount 65536 ∧ c ≠ symmetricCount 65536 := by
  obtain ⟨hs, hneg, hbig⟩ := calcPiScan_65536 65537 (by decide)
  have hc := coprimePairs_card_symmetric 65536 (by decide)
  rw [hc] at hneg hbig
  refine ⟨_, calcPiCnt_of_scan _ _ _ _ _ hs, ?_, hbig, ?_⟩
  · rw [hc]
    unfold INT_MAX
    omega
  · rw [hc]
    omega

/-- C15, amended: for every `int` `N` with `1 ≤ N < INT_MAX` for which
`2 * (φ(1) + φ(2) + ... + φ(N)) - 1`, with Euler's totient `φ`, is at most
`INT_MAX` (as it is whenever `N * N ≤ INT_MAX`), this number, which is the
number of coprime pairs, is the counter of the double loop of `calcPi(N)`, in
32-bit arithmetic with wrap-around and with overflow checked alike. -/
theorem calcPi_totient_shortcut (N : Int) (hN : 1 ≤ N) (hmax : N < INT_MAX)
    (fuel : Nat) (hf : N < fuel) :
    totientCount N = 2 * ((∑ k in Finset.Icc 1 N.toNat, Nat.totient k : Nat) : Int) - 1 ∧
    totientCount N = ((coprimePairs N).card : Int) ∧
    (totientCount N ≤ INT_MAX →
      calcPiCnt IntModel.wrap32 fuel N = some (totientCount N) ∧
      calcPiCnt IntModel.checked32 fuel N = some (totientCount N)) ∧
    (N * N ≤ INT_MAX → totientCount N ≤ INT_MAX) := by
  have hc := coprimePairs_card_totient N hN
  refine ⟨rfl, hc.symm, ?_, ?_⟩
  · intro hfit
    rw [← hc] at hfit ⊢
    exact ⟨calcPiCnt_of_scan _ _ _ _ _ (calcPiScan_wrap32_of_fits N (by omega) hmax hfit fuel hf),
      calcPiCnt_of_scan _ _ _ _ _ (calcPiScan_checked32_of_fits N (by omega) hmax hfit fuel hf)⟩
  · intro hNN
    rw [← hc]
    exact coprimePairs_card_fits N (by omega) hNN

theorem calcPi_totient_shortcut_witness :
    calcPiCnt IntModel.wrap32 10001 10000 = some (totientCount 10000) ∧
      calcPiCnt IntModel.checked32 10001 10000 = some (totientCount 10000) :=
  (calcPi_totient_shortcut 10000 (by decide) (by decide) 10001 (by decide)).2.2.1
    ((calcPi_totient_shortcut 10000 (by decide) (by decide) 10001 (by decide)).2.2.2 (by decide))

/-- C15 as stated fails at `N = 65536`: the 32-bit counter of `calcPi(65536)` is
at most `INT_MAX`, below `2 * (φ(1) + ... + φ(65536)) - 1`. -/
theorem calcPi_totient_shortcut_fails :
    ∃ c : Int, calcPiCnt IntModel.wrap32 65537 65536 = some c ∧ c ≤ INT_MAX ∧
      INT_MAX < totientCount 65536 ∧ c ≠ totientCount 65536 := by
  obtain ⟨hs, hneg, hbig⟩ := calcPiScan_65536 65537 (by decide)
  have hc := coprimePairs_card_totient 65536 (by decide)
  rw [hc] at hneg hbig
  refine ⟨_, calcPiCnt_of_scan _ _ _ _ _ hs, ?_, hbig, ?_⟩
  · rw [hc]
    unfold INT_MAX
    omega
  · rw [hc]
    omega

end ApproxPiGcd
